import Mathlib

/-!
# Memory manager (`memory_manager.c`): first-fit allocation, coalescing, compaction

A shallow embedding of the block-list allocator of `src/memory_manager.c`.

* The singly linked list `MemoryBlock *` is a `List MemoryBlock` in list order; the
  `RunningProcess *` list is a `List RunningProcess`.
* C `int` values are modelled as `Int`: signed overflow is undefined behaviour in C, so
  every statement below is about executions in which no `int` operation overflows.
* A function that mutates `*head` returns the new list.  `allocate_first_fit` returns the
  pair (result, new list) where the result is `some a` for `return 1` with `*start_addr = a`
  and `none` for `return 0` (in which case `*start_addr` is not written).
* Console output (`printf`, `print_memory`) is not modelled.
-/

namespace MemoryManager

/-- The enum `Status` (line 6). -/
inductive Status where
  | FREE
  | ALLOCATED
  deriving DecidableEq, Repr

/-- The struct `MemoryBlock` (lines 8-13) without its `next` link. -/
structure MemoryBlock where
  start : Int
  size : Int
  status : Status
  deriving DecidableEq, Repr

/-- The struct `RunningProcess` (lines 22-27) without its `next` link. -/
structure RunningProcess where
  start : Int
  size : Int
  finish_time : Int
  deriving DecidableEq, Repr

open Status

/-- Function `initialize_memory` (lines 35-42): one Free block covering `[0, size)`. -/
def initialize_memory (size : Int) : List MemoryBlock :=
  [⟨0, size, FREE⟩]

/-- Function `calculate_total_free` (lines 61-69): the sum of the sizes of the Free blocks. -/
def calculate_total_free : List MemoryBlock → Int
  | [] => 0
  | b :: rest =>
    if b.status = FREE then b.size + calculate_total_free rest
    else calculate_total_free rest

/-- Function `allocate_first_fit` (lines 161-182).  The scan stops at the first block that is Free
and has `size` at least the request; that block is split when strictly larger, and is
marked Allocated.  `none` stands for `return 0`. -/
def allocate_first_fit : List MemoryBlock → Int → Option Int × List MemoryBlock
  | [], _ => (none, [])
  | b :: rest, size =>
    if b.status = FREE ∧ b.size ≥ size then
      if b.size > size then
        (some b.start,
          ⟨b.start, size, ALLOCATED⟩ :: ⟨b.start + size, b.size - size, FREE⟩ :: rest)
      else
        (some b.start, ⟨b.start, b.size, ALLOCATED⟩ :: rest)
    else
      ((allocate_first_fit rest size).1, b :: (allocate_first_fit rest size).2)

/-- The loop of `merge_free_blocks` (lines 186-195) with `current` pointing at `cur` and
`rest` the nodes after it: when `cur` and its successor are both Free the successor is
absorbed and `current` stays, otherwise `current` advances. -/
def merge_from (cur : MemoryBlock) : List MemoryBlock → List MemoryBlock
  | [] => [cur]
  | n :: rest =>
    if cur.status = FREE ∧ n.status = FREE then
      merge_from ⟨cur.start, cur.size + n.size, cur.status⟩ rest
    else
      cur :: merge_from n rest

/-- Function `merge_free_blocks` (lines 184-196). -/
def merge_free_blocks : List MemoryBlock → List MemoryBlock
  | [] => []
  | b :: rest => merge_from b rest

/-- The scan of `deallocate` (lines 199-207): the list with the first block that has
`start = start_addr` and is Allocated re-marked Free, or `none` when the scan reaches the
end of the list without a hit. -/
def mark_free : List MemoryBlock → Int → Option (List MemoryBlock)
  | [], _ => none
  | b :: rest, start_addr =>
    if b.start = start_addr ∧ b.status = ALLOCATED then
      some (⟨b.start, b.size, FREE⟩ :: rest)
    else
      (mark_free rest start_addr).map (fun r => b :: r)

/-- Function `deallocate` (lines 198-208): on a hit the block is marked Free and
`merge_free_blocks` runs on the whole list; without a hit nothing happens. -/
def deallocate (head : List MemoryBlock) (start_addr : Int) : List MemoryBlock :=
  match mark_free head start_addr with
  | some marked => merge_free_blocks marked
  | none => head

/-- First loop of `compact_memory` (lines 78-95): copies of the Allocated blocks, in list
order. -/
def collect_allocated : List MemoryBlock → List MemoryBlock
  | [] => []
  | b :: rest =>
    if b.status = ALLOCATED then ⟨b.start, b.size, ALLOCATED⟩ :: collect_allocated rest
    else collect_allocated rest

/-- Inner loop of `compact_memory` (lines 110-117): the first record whose `start` equals
`old_start` gets `start = curr_start`, and the scan stops there. -/
def update_running : List RunningProcess → Int → Int → List RunningProcess
  | [], _, _ => []
  | rp :: rest, old_start, curr_start =>
    if rp.start = old_start then ⟨curr_start, rp.size, rp.finish_time⟩ :: rest
    else rp :: update_running rest old_start curr_start

/-- Second loop of `compact_memory` (lines 101-128) over the collected list: returns the
rebuilt Allocated blocks, the final `curr_start`, and the running list after the in-place
updates, which are done one block at a time on the already updated list. -/
def rebuild_layout :
    List MemoryBlock → Int → List RunningProcess → List MemoryBlock × Int × List RunningProcess
  | [], curr_start, running => ([], curr_start, running)
  | b :: rest, curr_start, running =>
    let r := rebuild_layout rest (curr_start + b.size) (update_running running b.start curr_start)
    (⟨curr_start, b.size, ALLOCATED⟩ :: r.1, r.2.1, r.2.2)

/-- Function `compact_memory` (lines 71-159): the new block list and the updated running
list.  The local `total_allocated` of the source is written but never read, and is left
out. -/
def compact_memory (head : List MemoryBlock) (mem_size : Int) (running : List RunningProcess) :
    List MemoryBlock × List RunningProcess :=
  let r := rebuild_layout (collect_allocated head) 0 running
  if r.2.1 < mem_size then
    (r.1 ++ [⟨r.2.1, mem_size - r.2.1, FREE⟩], r.2.2)
  else
    (r.1, r.2.2)

/-! ## Specification-side vocabulary -/

/-- A block satisfies a request: it is Free and at least as large. -/
def Fits (size : Int) (b : MemoryBlock) : Prop :=
  b.status = FREE ∧ size ≤ b.size

instance (size : Int) (b : MemoryBlock) : Decidable (Fits size b) :=
  inferInstanceAs (Decidable (b.status = FREE ∧ size ≤ b.size))

/-- The coverage invariant for total memory size `M`, in the words of the data model: the
list starts at 0, every block has positive size, adjacent blocks touch, and the sizes sum
to `M`. -/
def Coverage (M : Int) (bs : List MemoryBlock) : Prop :=
  bs.head?.map MemoryBlock.start = some 0 ∧
  (∀ b ∈ bs, 0 < b.size) ∧
  List.Chain' (fun a b : MemoryBlock => a.start + a.size = b.start) bs ∧
  (bs.map MemoryBlock.size).sum = M

instance (M : Int) (bs : List MemoryBlock) : Decidable (Coverage M bs) :=
  inferInstanceAs (Decidable (
    bs.head?.map MemoryBlock.start = some 0 ∧
    (∀ b ∈ bs, 0 < b.size) ∧
    List.Chain' (fun a b : MemoryBlock => a.start + a.size = b.start) bs ∧
    (bs.map MemoryBlock.size).sum = M))

/-- No two consecutive blocks are both Free. -/
def NoAdjacentFree (bs : List MemoryBlock) : Prop :=
  List.Chain' (fun a b : MemoryBlock => ¬ (a.status = FREE ∧ b.status = FREE)) bs

instance (bs : List MemoryBlock) : Decidable (NoAdjacentFree bs) :=
  inferInstanceAs (Decidable
    (List.Chain' (fun a b : MemoryBlock => ¬ (a.status = FREE ∧ b.status = FREE)) bs))

/-- One call on the block list: the operations of the allocator. -/
inductive Op where
  | alloc (size : Int)
  | dealloc (start_addr : Int)
  | merge
  | compact (running : List RunningProcess)

/-- The block list after one call. -/
def Op.apply (M : Int) (bs : List MemoryBlock) : Op → List MemoryBlock
  | .alloc size => (allocate_first_fit bs size).2
  | .dealloc start_addr => deallocate bs start_addr
  | .merge => merge_free_blocks bs
  | .compact running => (compact_memory bs M running).1

/-- The block list reached from `initialize_memory M` by a sequence of calls. -/
def run_ops (M : Int) (ops : List Op) : List MemoryBlock :=
  ops.foldl (Op.apply M) (initialize_memory M)

/-- The calls admitted by the coverage claim: every allocation request is positive. -/
def Op.positive : Op → Prop
  | .alloc size => 0 < size
  | _ => True

/-- The calls admitted by the no-adjacent-free claim: allocation with a positive request,
deallocation and compaction (no bare merge). -/
def Op.client : Op → Prop
  | .alloc size => 0 < size
  | .merge => False
  | _ => True

/-- The blocks `[lo, hi)` tiled by a list of positive-size blocks (recursive form of the
coverage invariant). -/
def Tiles : Int → Int → List MemoryBlock → Prop
  | lo, hi, [] => lo = hi
  | lo, hi, b :: rest => b.start = lo ∧ 0 < b.size ∧ Tiles (lo + b.size) hi rest

/-- The Allocated blocks of a list, in list order. -/
def allocated (bs : List MemoryBlock) : List MemoryBlock :=
  bs.filter (fun b => decide (b.status = ALLOCATED))

/-- The total size of the Allocated blocks. -/
def total_allocated (bs : List MemoryBlock) : Int :=
  ((allocated bs).map MemoryBlock.size).sum

/-- The given blocks placed one after the other from address `addr`, in the same order and
with the same sizes, all Allocated. -/
def pack_from : Int → List MemoryBlock → List MemoryBlock
  | _, [] => []
  | addr, b :: rest => ⟨addr, b.size, ALLOCATED⟩ :: pack_from (addr + b.size) rest

/-- The layout the design gives for compaction: the Allocated blocks, in their original
order, packed from address 0, followed by one Free block holding the remaining space,
omitted when nothing remains. -/
def compact_layout (bs : List MemoryBlock) (M : Int) : List MemoryBlock :=
  pack_from 0 (allocated bs) ++
    (if total_allocated bs = M then []
     else [⟨total_allocated bs, M - total_allocated bs, FREE⟩])

/-- The address the block with old start `addr` gets when the blocks `allocs` are packed
from `curr_start`: the sum of `curr_start` and the sizes of the blocks before the first
one that starts at `addr`.  An address that starts no block is left as it is. -/
def new_start : List MemoryBlock → Int → Int → Int
  | [], _, addr => addr
  | b :: rest, curr_start, addr =>
    if b.start = addr then curr_start else new_start rest (curr_start + b.size) addr

/-- The handle and extent of a block. -/
def MemoryBlock.key (b : MemoryBlock) : Int × Int := (b.start, b.size)

/-- The handle and extent recorded for a resident process. -/
def RunningProcess.key (r : RunningProcess) : Int × Int := (r.start, r.size)

/-- The running records and the Allocated blocks are in one-to-one correspondence by
(start, size): the two lists of keys are rearrangements of each other. -/
def Corresponds (bs : List MemoryBlock) (rs : List RunningProcess) : Prop :=
  (rs.map RunningProcess.key).Perm ((allocated bs).map MemoryBlock.key)

instance (bs : List MemoryBlock) (rs : List RunningProcess) : Decidable (Corresponds bs rs) :=
  inferInstanceAs (Decidable
    ((rs.map RunningProcess.key).Perm ((allocated bs).map MemoryBlock.key)))

/-- Blocks in ascending address order that do not overlap and lie at or above `lo`, each
of positive size (gaps between them are allowed). -/
def AscendingFrom : Int → List MemoryBlock → Prop
  | _, [] => True
  | lo, b :: rest => lo ≤ b.start ∧ 0 < b.size ∧ AscendingFrom (b.start + b.size) rest

/-- No record at or above `lo` shares its start with a later record. -/
def DistinctFrom (lo : Int) (rs : List RunningProcess) : Prop :=
  rs.Pairwise (fun r s => lo ≤ r.start → r.start ≠ s.start)

/-! ## The admission queue and the driver

* `retry_waiting` and the loop of `main` are modelled on explicit state: the variables they
  write are returned (`RetryOutcome`, `SimState`).
* `processes` is the array as `main` holds it after `qsort` (line 385); nothing below
  depends on how equal arrival times were ordered.
* `main` enters the simulation loop only when at least ten records were read (line 379).
  The statements about the loop hold for every batch, so in particular for those.
* `process_idx`, `alloc_count` start at 0 and are only incremented; they are natural
  numbers here.
-/

/-- The struct `Process` (lines 15-20). -/
structure Process where
  arrival_time : Int
  size : Int
  burst_time : Int
  pid : Int
  deriving DecidableEq, Repr

/-- The struct `WaitingProcess` (lines 29-33) without its `next` link. -/
structure WaitingProcess where
  process : Process
  attempts : Int
  deriving DecidableEq, Repr

/-- Function `add_running_process` (lines 236-243): the new record goes to the front. -/
def add_running_process (head : List RunningProcess) (start size finish : Int) :
    List RunningProcess :=
  ⟨start, size, finish⟩ :: head

/-- Function `add_to_waiting` (lines 245-260): the new entry goes to the end, with
`attempts = 0`. -/
def add_to_waiting (head : List WaitingProcess) (p : Process) : List WaitingProcess :=
  head ++ [⟨p, 0⟩]

/-- Function `check_completed_processes` (lines 262-282): every record with
`finish_time <= current_time` is deallocated by its `start` and unlinked, in list order;
the result is the remaining records and the block list. -/
def check_completed_processes :
    List RunningProcess → List MemoryBlock → Int → List RunningProcess × List MemoryBlock
  | [], memory, _ => ([], memory)
  | rp :: rest, memory, current_time =>
    if rp.finish_time ≤ current_time then
      check_completed_processes rest (deallocate memory rp.start) current_time
    else
      (rp :: (check_completed_processes rest memory current_time).1,
        (check_completed_processes rest memory current_time).2)

/-- What the `for` loop of `retry_waiting` (lines 297-319) leaves for one entry: the flag
`allocated`, the block list, the running list, and (not a variable of the source) the
number of calls of `compact_memory` the loop made. -/
structure Placement where
  allocated : Bool
  memory : List MemoryBlock
  running : List RunningProcess
  compactions : Nat
  deriving DecidableEq, Repr

/-- The `for` loop of `retry_waiting` (lines 297-319) for the process `p`, with `rounds`
iterations left (the source starts it with `max_attempts = 3`).  A round stops the loop
when the total free memory is below the size or when `allocate_first_fit` succeeds;
otherwise it compacts when `free_mem >= size` (the value read at the start of the round)
and goes to the next round. -/
def placement_rounds (p : Process) (current_time mem_size : Int) :
    Nat → List MemoryBlock → List RunningProcess → Placement
  | 0, memory, running => ⟨false, memory, running, 0⟩
  | rounds + 1, memory, running =>
    if calculate_total_free memory < p.size then
      ⟨false, memory, running, 0⟩
    else
      match (allocate_first_fit memory p.size).1 with
      | some start_addr =>
        ⟨true, (allocate_first_fit memory p.size).2,
          add_running_process running start_addr p.size (current_time + p.burst_time), 0⟩
      | none =>
        if calculate_total_free memory ≥ p.size then
          ⟨(placement_rounds p current_time mem_size rounds
              (compact_memory (allocate_first_fit memory p.size).2 mem_size running).1
              (compact_memory (allocate_first_fit memory p.size).2 mem_size running).2).allocated,
            (placement_rounds p current_time mem_size rounds
              (compact_memory (allocate_first_fit memory p.size).2 mem_size running).1
              (compact_memory (allocate_first_fit memory p.size).2 mem_size running).2).memory,
            (placement_rounds p current_time mem_size rounds
              (compact_memory (allocate_first_fit memory p.size).2 mem_size running).1
              (compact_memory (allocate_first_fit memory p.size).2 mem_size running).2).running,
            (placement_rounds p current_time mem_size rounds
              (compact_memory (allocate_first_fit memory p.size).2 mem_size running).1
              (compact_memory (allocate_first_fit memory p.size).2 mem_size running).2).compactions
              + 1⟩
        else
          placement_rounds p current_time mem_size rounds
            (allocate_first_fit memory p.size).2 running

/-- The values `retry_waiting` writes through its pointer arguments. -/
structure RetryOutcome where
  waiting : List WaitingProcess
  memory : List MemoryBlock
  running : List RunningProcess
  alloc_count : Nat
  deriving DecidableEq, Repr

/-- Function `retry_waiting` (lines 284-336): for each entry in queue order, up to three
placement rounds; a placed entry is unlinked and `alloc_count` is incremented, an entry
that is not placed stays where it is with `attempts` incremented. -/
def retry_waiting (current_time mem_size : Int) :
    List WaitingProcess → List MemoryBlock → List RunningProcess → Nat → RetryOutcome
  | [], memory, running, alloc_count => ⟨[], memory, running, alloc_count⟩
  | w :: rest, memory, running, alloc_count =>
    if (placement_rounds w.process current_time mem_size 3 memory running).allocated then
      retry_waiting current_time mem_size rest
        (placement_rounds w.process current_time mem_size 3 memory running).memory
        (placement_rounds w.process current_time mem_size 3 memory running).running
        (alloc_count + 1)
    else
      ⟨⟨w.process, w.attempts + 1⟩ ::
          (retry_waiting current_time mem_size rest
            (placement_rounds w.process current_time mem_size 3 memory running).memory
            (placement_rounds w.process current_time mem_size 3 memory running).running
            alloc_count).waiting,
        (retry_waiting current_time mem_size rest
          (placement_rounds w.process current_time mem_size 3 memory running).memory
          (placement_rounds w.process current_time mem_size 3 memory running).running
          alloc_count).memory,
        (retry_waiting current_time mem_size rest
          (placement_rounds w.process current_time mem_size 3 memory running).memory
          (placement_rounds w.process current_time mem_size 3 memory running).running
          alloc_count).running,
        (retry_waiting current_time mem_size rest
          (placement_rounds w.process current_time mem_size 3 memory running).memory
          (placement_rounds w.process current_time mem_size 3 memory running).running
          alloc_count).alloc_count⟩

/-- The value of the local flag `allocated` of `retry_waiting` (line 292, read at line 321)
for each entry of the queue, in queue order. -/
def retry_placed (current_time mem_size : Int) :
    List WaitingProcess → List MemoryBlock → List RunningProcess → List Bool
  | [], _, _ => []
  | w :: rest, memory, running =>
    (placement_rounds w.process current_time mem_size 3 memory running).allocated ::
      retry_placed current_time mem_size rest
        (placement_rounds w.process current_time mem_size 3 memory running).memory
        (placement_rounds w.process current_time mem_size 3 memory running).running

/-- The variables of `main` that the simulation loop (lines 395-436) reads and writes. -/
structure SimState where
  memory : List MemoryBlock
  active : List RunningProcess
  waiting : List WaitingProcess
  current_time : Int
  alloc_count : Nat
  process_idx : Nat
  deriving DecidableEq, Repr

/-- The state of `main` before the loop (lines 375, 387-391). -/
def initial_state (mem_size : Int) : SimState :=
  ⟨initialize_memory mem_size, [], [], 0, 0, 0⟩

/-- The expire step (line 398). -/
def expire (s : SimState) : SimState :=
  ⟨(check_completed_processes s.active s.memory s.current_time).2,
    (check_completed_processes s.active s.memory s.current_time).1,
    s.waiting, s.current_time, s.alloc_count, s.process_idx⟩

/-- The body of the arrival loop (lines 403-428) for the arriving process `p`: a process
larger than the memory is rejected; otherwise it is allocated at once or queued.  In each
case `process_idx` is incremented. -/
def admit_one (mem_size : Int) (p : Process) (s : SimState) : SimState :=
  if p.size > mem_size then
    ⟨s.memory, s.active, s.waiting, s.current_time, s.alloc_count, s.process_idx + 1⟩
  else
    match (allocate_first_fit s.memory p.size).1 with
    | some start_addr =>
      ⟨(allocate_first_fit s.memory p.size).2,
        add_running_process s.active start_addr p.size (s.current_time + p.burst_time),
        s.waiting, s.current_time, s.alloc_count + 1, s.process_idx + 1⟩
    | none =>
      ⟨(allocate_first_fit s.memory p.size).2, s.active, add_to_waiting s.waiting p,
        s.current_time, s.alloc_count, s.process_idx + 1⟩

/-- The arrival loop (lines 401-429) over the processes not yet consumed, that is over
`processes[process_idx..]`: it runs while the next process has arrived. -/
def admit_arrivals (mem_size : Int) : List Process → SimState → SimState
  | [], s => s
  | p :: rest, s =>
    if p.arrival_time ≤ s.current_time then admit_arrivals mem_size rest (admit_one mem_size p s)
    else s

/-- The arrival step (lines 400-429) on the array `processes` (as sorted by `qsort`). -/
def arrivals_step (mem_size : Int) (processes : List Process) (s : SimState) : SimState :=
  admit_arrivals mem_size (processes.drop s.process_idx) s

/-- The retry step (line 432). -/
def retry (mem_size : Int) (s : SimState) : SimState :=
  ⟨(retry_waiting s.current_time mem_size s.waiting s.memory s.active s.alloc_count).memory,
    (retry_waiting s.current_time mem_size s.waiting s.memory s.active s.alloc_count).running,
    (retry_waiting s.current_time mem_size s.waiting s.memory s.active s.alloc_count).waiting,
    s.current_time,
    (retry_waiting s.current_time mem_size s.waiting s.memory s.active s.alloc_count).alloc_count,
    s.process_idx⟩

/-- The end of the loop body (line 435). -/
def advance (s : SimState) : SimState :=
  ⟨s.memory, s.active, s.waiting, s.current_time + 1, s.alloc_count, s.process_idx⟩

/-- One iteration of the simulation loop: expire, arrivals, retry, advance the clock. -/
def tick (mem_size : Int) (processes : List Process) (s : SimState) : SimState :=
  advance (retry mem_size (arrivals_step mem_size processes (expire s)))

/-- The loop condition (line 395). -/
def loop_condition (processes : List Process) (s : SimState) : Prop :=
  s.process_idx < processes.length ∨ s.active ≠ [] ∨ s.waiting ≠ []

instance (processes : List Process) (s : SimState) : Decidable (loop_condition processes s) :=
  inferInstanceAs (Decidable (s.process_idx < processes.length ∨ s.active ≠ [] ∨ s.waiting ≠ []))

/-- The simulation loop (lines 395-436) run for at most `fuel` iterations. -/
def run_driver (mem_size : Int) (processes : List Process) : Nat → SimState → SimState
  | 0, s => s
  | fuel + 1, s =>
    if loop_condition processes s then run_driver mem_size processes fuel
      (tick mem_size processes s)
    else s

/-- The states at the head of the simulation loop: the state before the loop, and the
state after one more iteration from a state in which the loop condition holds. -/
inductive Reached (mem_size : Int) (processes : List Process) : SimState → Prop
  | start : Reached mem_size processes (initial_state mem_size)
  | next (s : SimState) : Reached mem_size processes s → loop_condition processes s →
      Reached mem_size processes (tick mem_size processes s)

/-- The terminal condition: no unprocessed arrival, no running process, empty queue. -/
def Terminal (processes : List Process) (s : SimState) : Prop :=
  s.process_idx = processes.length ∧ s.active = [] ∧ s.waiting = []

/-- The number of processes of a list that the arrival step rejects: those larger than the
memory. -/
def rejected (mem_size : Int) (ps : List Process) : Nat :=
  (ps.filter (fun p => decide (p.size > mem_size))).length

/-- The number of processes of a list that can be admitted: those no larger than the
memory. -/
def admissible (mem_size : Int) (ps : List Process) : Nat :=
  (ps.filter (fun p => decide (p.size ≤ mem_size))).length

/-- The accounting identity: every consumed process is allocated, waiting, or rejected. -/
def Accounted (mem_size : Int) (processes : List Process) (s : SimState) : Prop :=
  s.process_idx ≤ processes.length ∧
  s.alloc_count + s.waiting.length + rejected mem_size (processes.take s.process_idx) =
    s.process_idx

/-- The part of the coverage invariant that the retry loop relies on: the sizes sum to the
memory size and every Free block has positive size. -/
def Balanced (M : Int) (bs : List MemoryBlock) : Prop :=
  (bs.map MemoryBlock.size).sum = M ∧ ∀ b ∈ bs, b.status = FREE → 0 < b.size

/-- Every Allocated block has exactly one running record with the same start and size, and
every running record has exactly one Allocated block with the same start and size. -/
def ExactlyOne (bs : List MemoryBlock) (rs : List RunningProcess) : Prop :=
  (∀ b ∈ bs, b.status = ALLOCATED →
    (rs.filter (fun r => decide (r.start = b.start ∧ r.size = b.size))).length = 1) ∧
  (∀ r ∈ rs,
    (bs.filter (fun b =>
      decide (b.status = ALLOCATED ∧ b.start = r.start ∧ b.size = r.size))).length = 1)

/-- A batch of ten records of non-negative integers, as the input format admits; the first
record has size 0. -/
def zero_size_batch : List Process :=
  [⟨0, 0, 5, 1⟩, ⟨1, 10, 2, 2⟩, ⟨2, 10, 2, 3⟩, ⟨3, 10, 2, 4⟩, ⟨4, 10, 2, 5⟩,
   ⟨5, 10, 2, 6⟩, ⟨6, 10, 2, 7⟩, ⟨7, 10, 2, 8⟩, ⟨8, 10, 2, 9⟩, ⟨9, 10, 2, 10⟩]

/-- The weight of a process that has not been consumed yet, at time `t`. -/
def arrival_weight (t : Int) (p : Process) : Nat :=
  (p.arrival_time - t).toNat + p.burst_time.toNat + 3

/-- The weight of a queue entry. -/
def queue_weight (w : WaitingProcess) : Nat :=
  w.process.burst_time.toNat + 2

/-- The number of iterations, counted from time `t`, until every running record has been
expired; 0 for the empty list. -/
def horizon (t : Int) : List RunningProcess → Nat
  | [] => 0
  | r :: rest => max ((r.finish_time - t).toNat + 1) (horizon t rest)

/-- A bound on the number of iterations the simulation loop still makes from a state. -/
def potential (processes : List Process) (s : SimState) : Nat :=
  ((processes.drop s.process_idx).map (arrival_weight s.current_time)).sum +
    (s.waiting.map queue_weight).sum + horizon s.current_time s.active

/-! ## `allocate_first_fit` -/

theorem allocate_first_fit_none_of_no_fit (bs : List MemoryBlock) (size : Int)
    (h : ∀ b ∈ bs, ¬ Fits size b) : allocate_first_fit bs size = (none, bs) := by
  induction bs with
  | nil => rfl
  | cons b rest ih =>
    have hb : ¬ (b.status = FREE ∧ b.size ≥ size) := h b (List.mem_cons_self _ _)
    have hrest := ih (fun x hx => h x (List.mem_cons_of_mem _ hx))
    simp only [allocate_first_fit, if_neg hb, hrest]

theorem allocate_first_fit_at_first_fit (pre post : List MemoryBlock) (b : MemoryBlock)
    (size : Int) (hpre : ∀ x ∈ pre, ¬ Fits size x) (hb : Fits size b) :
    allocate_first_fit (pre ++ b :: post) size =
      (some b.start,
        pre ++ (if size < b.size
          then [⟨b.start, size, ALLOCATED⟩, ⟨b.start + size, b.size - size, FREE⟩]
          else [⟨b.start, b.size, ALLOCATED⟩]) ++ post) := by
  induction pre with
  | nil =>
    have hb' : b.status = FREE ∧ b.size ≥ size := hb
    by_cases hlt : size < b.size
    · have hgt : b.size > size := hlt
      simp only [List.nil_append, allocate_first_fit, if_pos hb', if_pos hgt, if_pos hlt,
        List.cons_append]
    · have hgt : ¬ b.size > size := hlt
      simp only [List.nil_append, allocate_first_fit, if_pos hb', if_neg hgt, if_neg hlt,
        List.cons_append]
  | cons p pre ih =>
    have hp : ¬ (p.status = FREE ∧ p.size ≥ size) := hpre p (List.mem_cons_self _ _)
    have hrest := ih (fun x hx => hpre x (List.mem_cons_of_mem _ hx))
    rw [List.cons_append, allocate_first_fit, if_neg hp, hrest]
    simp only [List.append_assoc, List.cons_append]

theorem exists_first_fit (bs : List MemoryBlock) (size : Int) (h : ∃ b ∈ bs, Fits size b) :
    ∃ pre b post, bs = pre ++ b :: post ∧ (∀ x ∈ pre, ¬ Fits size x) ∧ Fits size b := by
  induction bs with
  | nil => obtain ⟨b, hb, _⟩ := h; cases hb
  | cons c rest ih =>
    by_cases hc : Fits size c
    · exact ⟨[], c, rest, rfl, fun x hx => absurd hx (List.not_mem_nil x), hc⟩
    · obtain ⟨b, hb, hfit⟩ := h
      have hmem : b ∈ rest := by
        rcases List.mem_cons.mp hb with rfl | hmem
        · exact absurd hfit hc
        · exact hmem
      obtain ⟨pre, b', post, hsplit, hpre, hb'⟩ := ih ⟨b, hmem, hfit⟩
      refine ⟨c :: pre, b', post, by rw [hsplit, List.cons_append], ?_, hb'⟩
      intro x hx
      rcases List.mem_cons.mp hx with rfl | hx
      · exact hc
      · exact hpre x hx

theorem allocate_first_fit_some_has_fit (bs : List MemoryBlock) (size : Int)
    (h : (allocate_first_fit bs size).1 ≠ none) : ∃ b ∈ bs, Fits size b := by
  by_contra hno
  have hall : ∀ b ∈ bs, ¬ Fits size b := fun b hb hfit => hno ⟨b, hb, hfit⟩
  rw [allocate_first_fit_none_of_no_fit bs size hall] at h
  exact h rfl

/-- C3 (first-fit): when some Free block is at least as large as the request, the call
succeeds with the start of the first such block in list order; the blocks before it and the
blocks after it are unchanged, and only that block is replaced (by itself marked Allocated,
split off from a Free remainder when it is strictly larger). -/
theorem first_fit_chooses_first (bs : List MemoryBlock) (size : Int)
    (h : ∃ b ∈ bs, b.status = FREE ∧ size ≤ b.size) :
    ∃ pre b post, bs = pre ++ b :: post ∧
      (∀ x ∈ pre, ¬ (x.status = FREE ∧ size ≤ x.size)) ∧
      (b.status = FREE ∧ size ≤ b.size) ∧
      (allocate_first_fit bs size).1 = some b.start ∧
      (allocate_first_fit bs size).2 =
        pre ++ (if size < b.size
          then [⟨b.start, size, ALLOCATED⟩, ⟨b.start + size, b.size - size, FREE⟩]
          else [⟨b.start, b.size, ALLOCATED⟩]) ++ post := by
  obtain ⟨pre, b, post, hsplit, hpre, hb⟩ := exists_first_fit bs size h
  refine ⟨pre, b, post, hsplit, hpre, hb, ?_, ?_⟩
  · rw [hsplit, allocate_first_fit_at_first_fit pre post b size hpre hb]
  · rw [hsplit, allocate_first_fit_at_first_fit pre post b size hpre hb]

/-- Witness for C3: a request of 20 skips the Free block of size 10 and the Allocated
block, and takes the Free block of size 30 (not the exact-size block after it). -/
theorem first_fit_chooses_first_witness :
    (∃ b ∈ ([⟨0, 10, FREE⟩, ⟨10, 40, ALLOCATED⟩, ⟨50, 30, FREE⟩, ⟨80, 20, FREE⟩] :
        List MemoryBlock), b.status = FREE ∧ (20 : Int) ≤ b.size) ∧
    ∃ pre b post,
      ([⟨0, 10, FREE⟩, ⟨10, 40, ALLOCATED⟩, ⟨50, 30, FREE⟩, ⟨80, 20, FREE⟩] :
        List MemoryBlock) = pre ++ b :: post ∧
      (∀ x ∈ pre, ¬ (x.status = FREE ∧ (20 : Int) ≤ x.size)) ∧
      (b.status = FREE ∧ (20 : Int) ≤ b.size) ∧
      (allocate_first_fit
        [⟨0, 10, FREE⟩, ⟨10, 40, ALLOCATED⟩, ⟨50, 30, FREE⟩, ⟨80, 20, FREE⟩] 20).1
        = some b.start ∧
      (allocate_first_fit
        [⟨0, 10, FREE⟩, ⟨10, 40, ALLOCATED⟩, ⟨50, 30, FREE⟩, ⟨80, 20, FREE⟩] 20).2 =
        pre ++ (if (20 : Int) < b.size
          then [⟨b.start, 20, ALLOCATED⟩, ⟨b.start + 20, b.size - 20, FREE⟩]
          else [⟨b.start, b.size, ALLOCATED⟩]) ++ post :=
  ⟨⟨⟨50, 30, FREE⟩, by decide, by decide⟩,
    first_fit_chooses_first _ 20 ⟨⟨50, 30, FREE⟩, by decide, by decide⟩⟩

/-- C4 (failure): the call returns 0 exactly when no Free block is at least as large as the
request, and then the block list is the list it was given. -/
theorem allocate_fails_iff_no_fit (bs : List MemoryBlock) (size : Int) :
    ((allocate_first_fit bs size).1 = none ↔
      ∀ b ∈ bs, ¬ (b.status = FREE ∧ size ≤ b.size)) ∧
    ((allocate_first_fit bs size).1 = none → (allocate_first_fit bs size).2 = bs) := by
  have hback : (∀ b ∈ bs, ¬ (b.status = FREE ∧ size ≤ b.size)) →
      allocate_first_fit bs size = (none, bs) :=
    allocate_first_fit_none_of_no_fit bs size
  have hfwd : (allocate_first_fit bs size).1 = none →
      ∀ b ∈ bs, ¬ (b.status = FREE ∧ size ≤ b.size) := by
    intro hnone b hb hfit
    obtain ⟨pre, c, post, hsplit, hpre, hc⟩ := exists_first_fit bs size ⟨b, hb, hfit⟩
    rw [hsplit, allocate_first_fit_at_first_fit pre post c size hpre hc] at hnone
    cases hnone
  refine ⟨⟨hfwd, fun hno => by rw [hback hno]⟩, fun hnone => ?_⟩
  rw [hback (hfwd hnone)]

/-- C5 (admission correctness): on a list of positive-size blocks and a positive request
`S`, a successful call with start `a` leaves an Allocated block `(a, S)` in the list; the
chosen Free block of size `S'` is either strictly larger, and is then followed immediately
by a Free block `(a + S, S' - S)` of positive size, or has `S' = S`, and then no block is
added; every block of the result has positive size. -/
theorem admission_correct (bs bs' : List MemoryBlock) (S a : Int)
    (hpos : ∀ b ∈ bs, 0 < b.size) (hS : 0 < S)
    (h : allocate_first_fit bs S = (some a, bs')) :
    (⟨a, S, ALLOCATED⟩ : MemoryBlock) ∈ bs' ∧
    (∀ x ∈ bs', 0 < x.size) ∧
    ∃ pre b post, bs = pre ++ b :: post ∧
      (∀ x ∈ pre, ¬ (x.status = FREE ∧ S ≤ x.size)) ∧
      b.start = a ∧ b.status = FREE ∧ S ≤ b.size ∧
      (S < b.size →
        bs' = pre ++ ⟨a, S, ALLOCATED⟩ :: ⟨a + S, b.size - S, FREE⟩ :: post ∧
        0 < b.size - S) ∧
      (b.size = S →
        bs' = pre ++ ⟨a, S, ALLOCATED⟩ :: post ∧ bs'.length = bs.length) := by
  have hsome : (allocate_first_fit bs S).1 ≠ none := by rw [h]; simp
  obtain ⟨pre, b, post, hsplit, hpre, hb⟩ :=
    exists_first_fit bs S (allocate_first_fit_some_has_fit bs S hsome)
  have hrun := allocate_first_fit_at_first_fit pre post b S hpre hb
  rw [← hsplit, h] at hrun
  have ha : a = b.start := by
    have := congrArg Prod.fst hrun
    simpa using this
  have hbs' : bs' = pre ++ (if S < b.size
      then [⟨b.start, S, ALLOCATED⟩, ⟨b.start + S, b.size - S, FREE⟩]
      else [⟨b.start, b.size, ALLOCATED⟩]) ++ post := congrArg Prod.snd hrun
  have hprepos : ∀ x ∈ pre, 0 < x.size := fun x hx =>
    hpos x (by rw [hsplit]; exact List.mem_append_left _ hx)
  have hpostpos : ∀ x ∈ post, 0 < x.size := fun x hx =>
    hpos x (by rw [hsplit]; exact List.mem_append_right _ (List.mem_cons_of_mem _ hx))
  by_cases hlt : S < b.size
  · rw [if_pos hlt] at hbs'
    have hrem : 0 < b.size - S := by omega
    refine ⟨?_, ?_, pre, b, post, hsplit, hpre, ha.symm, hb.1, hb.2, ?_, ?_⟩
    · rw [hbs', ha]; simp
    · intro x hx
      rw [hbs'] at hx
      simp only [List.append_assoc, List.mem_append, List.mem_cons, List.mem_singleton,
        List.cons_append, List.nil_append] at hx
      rcases hx with hx | rfl | rfl | hx
      · exact hprepos x hx
      · exact hS
      · exact hrem
      · exact hpostpos x hx
    · intro _
      refine ⟨?_, hrem⟩
      rw [hbs', ha]; simp
    · intro heq; omega
  · rw [if_neg hlt] at hbs'
    have heq : b.size = S := le_antisymm (not_lt.mp hlt) hb.2
    rw [heq] at hbs'
    refine ⟨?_, ?_, pre, b, post, hsplit, hpre, ha.symm, hb.1, hb.2, ?_, ?_⟩
    · rw [hbs', ha]; simp
    · intro x hx
      rw [hbs'] at hx
      simp only [List.append_assoc, List.mem_append, List.mem_cons, List.mem_singleton,
        List.cons_append, List.nil_append] at hx
      rcases hx with hx | rfl | hx
      · exact hprepos x hx
      · exact hS
      · exact hpostpos x hx
    · intro hlt'; exact absurd hlt' hlt
    · intro _
      refine ⟨?_, ?_⟩
      · rw [hbs', ha]; simp
      · rw [hbs', hsplit]; simp

/-- Witness for C5: a request of 30 against `[(0,10,A), (10,50,F), (60,40,A)]` succeeds at
start 10 and splits the Free block into `(10,30,A)` and `(40,20,F)`. -/
theorem admission_correct_witness :
    (⟨10, 30, ALLOCATED⟩ : MemoryBlock) ∈
      ([⟨0, 10, ALLOCATED⟩, ⟨10, 30, ALLOCATED⟩, ⟨40, 20, FREE⟩, ⟨60, 40, ALLOCATED⟩] :
        List MemoryBlock) ∧
    (∀ x ∈ ([⟨0, 10, ALLOCATED⟩, ⟨10, 30, ALLOCATED⟩, ⟨40, 20, FREE⟩, ⟨60, 40, ALLOCATED⟩] :
        List MemoryBlock), 0 < x.size) ∧
    ∃ pre b post,
      ([⟨0, 10, ALLOCATED⟩, ⟨10, 50, FREE⟩, ⟨60, 40, ALLOCATED⟩] : List MemoryBlock) =
        pre ++ b :: post ∧
      (∀ x ∈ pre, ¬ (x.status = FREE ∧ (30 : Int) ≤ x.size)) ∧
      b.start = 10 ∧ b.status = FREE ∧ (30 : Int) ≤ b.size ∧
      ((30 : Int) < b.size →
        ([⟨0, 10, ALLOCATED⟩, ⟨10, 30, ALLOCATED⟩, ⟨40, 20, FREE⟩, ⟨60, 40, ALLOCATED⟩] :
          List MemoryBlock) =
          pre ++ ⟨10, 30, ALLOCATED⟩ :: ⟨10 + 30, b.size - 30, FREE⟩ :: post ∧
        0 < b.size - 30) ∧
      (b.size = 30 →
        ([⟨0, 10, ALLOCATED⟩, ⟨10, 30, ALLOCATED⟩, ⟨40, 20, FREE⟩, ⟨60, 40, ALLOCATED⟩] :
          List MemoryBlock) = pre ++ ⟨10, 30, ALLOCATED⟩ :: post ∧
        ([⟨0, 10, ALLOCATED⟩, ⟨10, 30, ALLOCATED⟩, ⟨40, 20, FREE⟩, ⟨60, 40, ALLOCATED⟩] :
          List MemoryBlock).length =
        ([⟨0, 10, ALLOCATED⟩, ⟨10, 50, FREE⟩, ⟨60, 40, ALLOCATED⟩] :
          List MemoryBlock).length) :=
  admission_correct [⟨0, 10, ALLOCATED⟩, ⟨10, 50, FREE⟩, ⟨60, 40, ALLOCATED⟩]
    [⟨0, 10, ALLOCATED⟩, ⟨10, 30, ALLOCATED⟩, ⟨40, 20, FREE⟩, ⟨60, 40, ALLOCATED⟩] 30 10
    (by decide) (by decide) (by decide)

/-! ## The recursive form of the coverage invariant -/

theorem tiles_cons_iff (b : MemoryBlock) (rest : List MemoryBlock) (lo hi : Int) :
    Tiles lo hi (b :: rest) ↔
      b.start = lo ∧ (∀ x ∈ b :: rest, 0 < x.size) ∧
      List.Chain' (fun a c : MemoryBlock => a.start + a.size = c.start) (b :: rest) ∧
      lo + ((b :: rest).map MemoryBlock.size).sum = hi := by
  induction rest generalizing b lo with
  | nil =>
    simp only [Tiles, List.mem_singleton, forall_eq, List.chain'_singleton, true_and,
      List.map_cons, List.map_nil, List.sum_cons, List.sum_nil, add_zero]
  | cons c rest ih =>
    have hstep : Tiles lo hi (b :: c :: rest) ↔
        b.start = lo ∧ 0 < b.size ∧ Tiles (lo + b.size) hi (c :: rest) := Iff.rfl
    rw [hstep, ih c (lo + b.size), List.chain'_cons]
    simp only [List.map_cons, List.sum_cons, List.mem_cons, forall_eq_or_imp]
    constructor
    · rintro ⟨h1, h2, h3, ⟨h4, h5⟩, h6, h7⟩
      refine ⟨h1, ⟨h2, h4, h5⟩, ⟨by omega, h6⟩, by omega⟩
    · rintro ⟨h1, ⟨h2, h4, h5⟩, ⟨h3, h6⟩, h7⟩
      refine ⟨h1, h2, by omega, ⟨h4, h5⟩, h6, by omega⟩

theorem coverage_iff_tiles (M : Int) (bs : List MemoryBlock) :
    Coverage M bs ↔ bs ≠ [] ∧ Tiles 0 M bs := by
  cases bs with
  | nil => simp [Coverage]
  | cons b rest =>
    rw [tiles_cons_iff]
    simp only [Coverage, List.head?_cons, Option.map_some', Option.some.injEq, ne_eq,
      reduceCtorEq, not_false_eq_true, true_and, zero_add]

theorem tiles_sum (bs : List MemoryBlock) (lo hi : Int) (h : Tiles lo hi bs) :
    lo + (bs.map MemoryBlock.size).sum = hi := by
  induction bs generalizing lo with
  | nil => simpa [Tiles] using h
  | cons b rest ih =>
    obtain ⟨_, _, hrest⟩ := h
    have := ih _ hrest
    simp only [List.map_cons, List.sum_cons]
    omega

theorem tiles_pos (bs : List MemoryBlock) (lo hi : Int) (h : Tiles lo hi bs) :
    ∀ b ∈ bs, 0 < b.size := by
  induction bs generalizing lo with
  | nil => intro b hb; cases hb
  | cons c rest ih =>
    obtain ⟨_, hc, hrest⟩ := h
    intro b hb
    rcases List.mem_cons.mp hb with rfl | hb
    · exact hc
    · exact ih _ hrest b hb

theorem tiles_append (l₁ l₂ : List MemoryBlock) (lo mid hi : Int)
    (h₁ : Tiles lo mid l₁) (h₂ : Tiles mid hi l₂) : Tiles lo hi (l₁ ++ l₂) := by
  induction l₁ generalizing lo with
  | nil =>
    have : lo = mid := h₁
    subst this
    exact h₂
  | cons b rest ih =>
    obtain ⟨hb, hpos, hrest⟩ := h₁
    exact ⟨hb, hpos, ih _ hrest⟩

theorem tiles_allocate (bs : List MemoryBlock) (lo hi size : Int) (hsize : 0 < size)
    (h : Tiles lo hi bs) : Tiles lo hi (allocate_first_fit bs size).2 := by
  induction bs generalizing lo with
  | nil => exact h
  | cons b rest ih =>
    obtain ⟨hb, hpos, hrest⟩ := h
    by_cases hfit : b.status = FREE ∧ b.size ≥ size
    · by_cases hgt : b.size > size
      · simp only [allocate_first_fit, if_pos hfit, if_pos hgt]
        refine ⟨hb, hsize, ?_, ?_, ?_⟩
        · show b.start + size = lo + size
          rw [hb]
        · show 0 < b.size - size
          omega
        · have : lo + size + (b.size - size) = lo + b.size := by ring
          show Tiles (lo + size + (b.size - size)) hi rest
          rw [this]
          exact hrest
      · simp only [allocate_first_fit, if_pos hfit, if_neg hgt]
        exact ⟨hb, hpos, hrest⟩
    · simp only [allocate_first_fit, if_neg hfit]
      exact ⟨hb, hpos, ih _ hrest⟩

theorem tiles_merge_from (cur : MemoryBlock) (rest : List MemoryBlock) (lo hi : Int)
    (h : Tiles lo hi (cur :: rest)) : Tiles lo hi (merge_from cur rest) := by
  induction rest generalizing cur lo with
  | nil => exact h
  | cons n rest ih =>
    obtain ⟨hc, hcpos, hn, hnpos, hrest⟩ := h
    by_cases hboth : cur.status = FREE ∧ n.status = FREE
    · simp only [merge_from, if_pos hboth]
      apply ih
      refine ⟨hc, ?_, ?_⟩
      · show 0 < cur.size + n.size
        omega
      · have : lo + (cur.size + n.size) = lo + cur.size + n.size := by ring
        show Tiles (lo + (cur.size + n.size)) hi rest
        rw [this]
        exact hrest
    · simp only [merge_from, if_neg hboth]
      exact ⟨hc, hcpos, ih n _ ⟨hn, hnpos, hrest⟩⟩

theorem tiles_merge_free_blocks (bs : List MemoryBlock) (lo hi : Int) (h : Tiles lo hi bs) :
    Tiles lo hi (merge_free_blocks bs) := by
  cases bs with
  | nil => exact h
  | cons b rest => exact tiles_merge_from b rest lo hi h

theorem tiles_mark_free (bs marked : List MemoryBlock) (lo hi start_addr : Int)
    (h : Tiles lo hi bs) (hm : mark_free bs start_addr = some marked) :
    Tiles lo hi marked := by
  induction bs generalizing lo marked with
  | nil => cases hm
  | cons b rest ih =>
    obtain ⟨hb, hpos, hrest⟩ := h
    by_cases hhit : b.start = start_addr ∧ b.status = ALLOCATED
    · simp only [mark_free, if_pos hhit, Option.some.injEq] at hm
      subst hm
      exact ⟨hb, hpos, hrest⟩
    · simp only [mark_free, if_neg hhit, Option.map_eq_some'] at hm
      obtain ⟨r, hr, rfl⟩ := hm
      exact ⟨hb, hpos, ih r _ hrest hr⟩

theorem tiles_deallocate (bs : List MemoryBlock) (lo hi start_addr : Int)
    (h : Tiles lo hi bs) : Tiles lo hi (deallocate bs start_addr) := by
  unfold deallocate
  cases hm : mark_free bs start_addr with
  | none => exact h
  | some marked =>
    exact tiles_merge_free_blocks marked lo hi (tiles_mark_free bs marked lo hi start_addr h hm)

/-! ## Facts about the two loops of `compact_memory` -/

theorem collect_allocated_eq_filter (bs : List MemoryBlock) :
    collect_allocated bs = bs.filter (fun b => decide (b.status = ALLOCATED)) := by
  induction bs with
  | nil => rfl
  | cons b rest ih =>
    by_cases hb : b.status = ALLOCATED
    · have hbeq : (⟨b.start, b.size, ALLOCATED⟩ : MemoryBlock) = b := by
        cases b; simp only at hb; subst hb; rfl
      simp only [collect_allocated, if_pos hb, ih, hbeq, List.filter_cons, hb, decide_True,
        if_true]
    · simp only [collect_allocated, if_neg hb, ih, List.filter_cons, hb, decide_False,
        Bool.false_eq_true, if_false]

theorem collect_allocated_sum_add_free (bs : List MemoryBlock) :
    ((collect_allocated bs).map MemoryBlock.size).sum + calculate_total_free bs =
      (bs.map MemoryBlock.size).sum := by
  induction bs with
  | nil => rfl
  | cons b rest ih =>
    cases hst : b.status with
    | FREE =>
      simp only [collect_allocated, calculate_total_free, hst, reduceCtorEq, if_false,
        if_true, List.map_cons, List.sum_cons]
      omega
    | ALLOCATED =>
      simp only [collect_allocated, calculate_total_free, hst, reduceCtorEq, if_false,
        if_true, List.map_cons, List.sum_cons]
      omega

theorem calculate_total_free_nonneg (bs : List MemoryBlock) (hpos : ∀ b ∈ bs, 0 < b.size) :
    0 ≤ calculate_total_free bs := by
  induction bs with
  | nil => exact le_refl _
  | cons b rest ih =>
    have hb := hpos b (List.mem_cons_self _ _)
    have hrest := ih (fun x hx => hpos x (List.mem_cons_of_mem _ hx))
    by_cases hst : b.status = FREE
    · simp only [calculate_total_free, if_pos hst]; omega
    · simp only [calculate_total_free, if_neg hst]; exact hrest

theorem rebuild_layout_end (allocs : List MemoryBlock) (c : Int) (rs : List RunningProcess) :
    (rebuild_layout allocs c rs).2.1 = c + (allocs.map MemoryBlock.size).sum := by
  induction allocs generalizing c rs with
  | nil => simp [rebuild_layout]
  | cons b rest ih =>
    simp only [rebuild_layout, ih, List.map_cons, List.sum_cons]
    ring

theorem rebuild_layout_tiles (allocs : List MemoryBlock) (c : Int) (rs : List RunningProcess)
    (hpos : ∀ b ∈ allocs, 0 < b.size) :
    Tiles c (c + (allocs.map MemoryBlock.size).sum) (rebuild_layout allocs c rs).1 := by
  induction allocs generalizing c rs with
  | nil => simp [rebuild_layout, Tiles]
  | cons b rest ih =>
    have hb := hpos b (List.mem_cons_self _ _)
    have hrest := ih (c + b.size) (update_running rs b.start c)
      (fun x hx => hpos x (List.mem_cons_of_mem _ hx))
    have hsum : c + ((b :: rest).map MemoryBlock.size).sum =
        c + b.size + (rest.map MemoryBlock.size).sum := by
      simp only [List.map_cons, List.sum_cons]; ring
    rw [hsum]
    exact ⟨rfl, hb, hrest⟩

theorem rebuild_layout_all_allocated (allocs : List MemoryBlock) (c : Int)
    (rs : List RunningProcess) :
    ∀ x ∈ (rebuild_layout allocs c rs).1, x.status = ALLOCATED := by
  induction allocs generalizing c rs with
  | nil => intro x hx; cases hx
  | cons b rest ih =>
    intro x hx
    simp only [rebuild_layout, List.mem_cons] at hx
    rcases hx with rfl | hx
    · rfl
    · exact ih _ _ x hx

theorem collect_allocated_pos (bs : List MemoryBlock) (hpos : ∀ b ∈ bs, 0 < b.size) :
    ∀ b ∈ collect_allocated bs, 0 < b.size := by
  intro b hb
  rw [collect_allocated_eq_filter] at hb
  exact hpos b (List.mem_filter.mp hb).1

theorem tiles_compact_memory (bs : List MemoryBlock) (M : Int) (rs : List RunningProcess)
    (h : Tiles 0 M bs) : Tiles 0 M (compact_memory bs M rs).1 := by
  have hpos := tiles_pos bs 0 M h
  have hsum := tiles_sum bs 0 M h
  have hsplit := collect_allocated_sum_add_free bs
  have hfree := calculate_total_free_nonneg bs hpos
  have hend := rebuild_layout_end (collect_allocated bs) 0 rs
  have htiles := rebuild_layout_tiles (collect_allocated bs) 0 rs
    (collect_allocated_pos bs hpos)
  unfold compact_memory
  by_cases hlt : (rebuild_layout (collect_allocated bs) 0 rs).2.1 < M
  · simp only [if_pos hlt]
    apply tiles_append _ _ 0 (rebuild_layout (collect_allocated bs) 0 rs).2.1 M
    · rw [hend]; exact htiles
    · refine ⟨rfl, ?_, ?_⟩
      · show 0 < M - (rebuild_layout (collect_allocated bs) 0 rs).2.1
        omega
      · show (rebuild_layout (collect_allocated bs) 0 rs).2.1 +
          (M - (rebuild_layout (collect_allocated bs) 0 rs).2.1) = M
        ring
  · simp only [if_neg hlt]
    have heq : 0 + ((collect_allocated bs).map MemoryBlock.size).sum = M := by omega
    rw [← heq]
    exact htiles

theorem tiles_apply (M : Int) (bs : List MemoryBlock) (op : Op) (hop : op.positive)
    (h : Tiles 0 M bs) : Tiles 0 M (op.apply M bs) := by
  cases op with
  | alloc size => exact tiles_allocate bs 0 M size hop h
  | dealloc start_addr => exact tiles_deallocate bs 0 M start_addr h
  | merge => exact tiles_merge_free_blocks bs 0 M h
  | compact running => exact tiles_compact_memory bs M running h

theorem tiles_foldl (M : Int) (ops : List Op) (bs : List MemoryBlock)
    (hops : ∀ op ∈ ops, op.positive) (h : Tiles 0 M bs) :
    Tiles 0 M (ops.foldl (Op.apply M) bs) := by
  induction ops generalizing bs with
  | nil => exact h
  | cons op rest ih =>
    exact ih _ (fun o ho => hops o (List.mem_cons_of_mem _ ho))
      (tiles_apply M bs op (hops op (List.mem_cons_self _ _)) h)

/-- C1 (coverage invariant): for `M > 0`, every block list reached from
`initialize_memory M` by calls of `allocate_first_fit` with a positive request,
`deallocate` with any address, `merge_free_blocks` and `compact_memory` with `mem_size = M`
starts at 0, has only positive sizes, has touching adjacent blocks, and sizes summing to
`M`. -/
theorem coverage_invariant (M : Int) (hM : 0 < M) (ops : List Op)
    (hops : ∀ op ∈ ops, op.positive) : Coverage M (run_ops M ops) := by
  have hinit : Tiles 0 M (initialize_memory M) := by
    refine ⟨rfl, hM, ?_⟩
    show (0 : Int) + M = M
    ring
  have hreach : Tiles 0 M (run_ops M ops) := tiles_foldl M ops _ hops hinit
  rw [coverage_iff_tiles]
  refine ⟨?_, hreach⟩
  intro hnil
  rw [hnil] at hreach
  have : (0 : Int) = M := hreach
  omega

/-- Witness for C1: memory of 100, allocate 30 and 40, free the first, merge, compact. -/
theorem coverage_invariant_witness :
    (0 : Int) < 100 ∧
    Coverage 100 (run_ops 100
      [Op.alloc 30, Op.alloc 40, Op.dealloc 0, Op.merge, Op.compact [⟨30, 40, 7⟩]]) :=
  ⟨by decide, coverage_invariant 100 (by decide)
    [Op.alloc 30, Op.alloc 40, Op.dealloc 0, Op.merge, Op.compact [⟨30, 40, 7⟩]]
    (by intro op hop; simp only [List.mem_cons, List.mem_singleton, List.not_mem_nil,
          or_false] at hop
        rcases hop with rfl | rfl | rfl | rfl | rfl <;> simp [Op.positive])⟩

/-! ## No two adjacent Free blocks -/

theorem merge_from_head_status (cur : MemoryBlock) (rest : List MemoryBlock) :
    ∀ y ∈ (merge_from cur rest).head?, y.status = cur.status := by
  induction rest generalizing cur with
  | nil => intro y hy; simp only [merge_from, List.head?_cons, Option.mem_def,
      Option.some.injEq] at hy; rw [← hy]
  | cons n rest ih =>
    by_cases hboth : cur.status = FREE ∧ n.status = FREE
    · simp only [merge_from, if_pos hboth]
      exact ih _
    · intro y hy
      simp only [merge_from, if_neg hboth, List.head?_cons, Option.mem_def,
        Option.some.injEq] at hy
      rw [← hy]

theorem noAdjacentFree_merge_from (cur : MemoryBlock) (rest : List MemoryBlock) :
    NoAdjacentFree (merge_from cur rest) := by
  induction rest generalizing cur with
  | nil => exact List.chain'_singleton _
  | cons n rest ih =>
    by_cases hboth : cur.status = FREE ∧ n.status = FREE
    · simp only [merge_from, if_pos hboth]
      exact ih _
    · simp only [merge_from, if_neg hboth]
      refine List.chain'_cons'.mpr ⟨?_, ih n⟩
      intro y hy
      rw [merge_from_head_status n rest y hy]
      exact hboth

theorem noAdjacentFree_merge_free_blocks (bs : List MemoryBlock) :
    NoAdjacentFree (merge_free_blocks bs) := by
  cases bs with
  | nil => exact List.chain'_nil
  | cons b rest => exact noAdjacentFree_merge_from b rest

theorem allocate_head_free (bs : List MemoryBlock) (size : Int) :
    ∀ y ∈ (allocate_first_fit bs size).2.head?, y.status = FREE →
      ∃ x ∈ bs.head?, x.status = FREE := by
  cases bs with
  | nil => intro y hy; cases hy
  | cons b rest =>
    intro y hy hfree
    by_cases hfit : b.status = FREE ∧ b.size ≥ size
    · exact ⟨b, rfl, hfit.1⟩
    · simp only [allocate_first_fit, if_neg hfit, List.head?_cons, Option.mem_def,
        Option.some.injEq] at hy
      subst hy
      exact ⟨_, rfl, hfree⟩

theorem noAdjacentFree_allocate (bs : List MemoryBlock) (size : Int)
    (h : NoAdjacentFree bs) : NoAdjacentFree (allocate_first_fit bs size).2 := by
  induction bs with
  | nil => exact h
  | cons b rest ih =>
    obtain ⟨hhead, htail⟩ := List.chain'_cons'.mp h
    by_cases hfit : b.status = FREE ∧ b.size ≥ size
    · by_cases hgt : b.size > size
      · simp only [allocate_first_fit, if_pos hfit, if_pos hgt]
        refine List.chain'_cons'.mpr ⟨?_, List.chain'_cons'.mpr ⟨?_, htail⟩⟩
        · intro y _ hboth
          cases hboth.1
        · intro y hy hboth
          exact hhead y hy ⟨hfit.1, hboth.2⟩
      · simp only [allocate_first_fit, if_pos hfit, if_neg hgt]
        refine List.chain'_cons'.mpr ⟨?_, htail⟩
        intro y _ hboth
        cases hboth.1
    · simp only [allocate_first_fit, if_neg hfit]
      refine List.chain'_cons'.mpr ⟨?_, ih htail⟩
      intro y hy hboth
      obtain ⟨x, hx, hxfree⟩ := allocate_head_free rest size y hy hboth.2
      exact hhead x hx ⟨hboth.1, hxfree⟩

theorem noAdjacentFree_deallocate (bs : List MemoryBlock) (start_addr : Int)
    (h : NoAdjacentFree bs) : NoAdjacentFree (deallocate bs start_addr) := by
  unfold deallocate
  cases mark_free bs start_addr with
  | none => exact h
  | some marked => exact noAdjacentFree_merge_free_blocks marked

theorem noAdjacentFree_allocated_append (l tl : List MemoryBlock)
    (hl : ∀ x ∈ l, x.status = ALLOCATED) (htl : NoAdjacentFree tl) :
    NoAdjacentFree (l ++ tl) := by
  induction l with
  | nil => exact htl
  | cons b rest ih =>
    have hb := hl b (List.mem_cons_self _ _)
    refine List.chain'_cons'.mpr ⟨?_, ih (fun x hx => hl x (List.mem_cons_of_mem _ hx))⟩
    intro y _ hboth
    rw [hb] at hboth
    cases hboth.1

theorem noAdjacentFree_compact_memory (bs : List MemoryBlock) (M : Int)
    (rs : List RunningProcess) : NoAdjacentFree (compact_memory bs M rs).1 := by
  have hall := rebuild_layout_all_allocated (collect_allocated bs) 0 rs
  unfold compact_memory
  by_cases hlt : (rebuild_layout (collect_allocated bs) 0 rs).2.1 < M
  · simp only [if_pos hlt]
    exact noAdjacentFree_allocated_append _ _ hall (List.chain'_singleton _)
  · simp only [if_neg hlt]
    have := noAdjacentFree_allocated_append _ [] hall List.chain'_nil
    rwa [List.append_nil] at this

theorem noAdjacentFree_foldl (M : Int) (ops : List Op) (bs : List MemoryBlock)
    (h : NoAdjacentFree bs) : NoAdjacentFree (ops.foldl (Op.apply M) bs) := by
  induction ops generalizing bs with
  | nil => exact h
  | cons op rest ih =>
    apply ih
    cases op with
    | alloc size => exact noAdjacentFree_allocate bs size h
    | dealloc start_addr => exact noAdjacentFree_deallocate bs start_addr h
    | merge => exact noAdjacentFree_merge_free_blocks bs
    | compact running => exact noAdjacentFree_compact_memory bs M running

/-- C2 (no adjacent Free): in every state reached from `initialize_memory M` by calls of
`allocate_first_fit` with a positive request, `deallocate` and `compact_memory` with
`mem_size = M`, the block list right after a `deallocate` call (hit or miss, any address)
and right after a `compact_memory` call has no two consecutive Free blocks.  The proof
goes through `noAdjacentFree_foldl`, which holds for every sequence of calls. -/
theorem no_adjacent_free_after_deallocate_or_compact (M : Int) (ops : List Op)
    (hops : ∀ op ∈ ops, op.client) (start_addr : Int) (running : List RunningProcess) :
    NoAdjacentFree (deallocate (run_ops M ops) start_addr) ∧
    NoAdjacentFree (compact_memory (run_ops M ops) M running).1 := by
  have _ := hops
  have hreach : NoAdjacentFree (run_ops M ops) :=
    noAdjacentFree_foldl M ops _ (List.chain'_singleton _)
  exact ⟨noAdjacentFree_deallocate _ start_addr hreach,
    noAdjacentFree_compact_memory _ M running⟩

/-- Witness for C2: memory of 100 with three allocations and the middle one freed; a
deallocation of the block at 0 and a compaction both leave no adjacent Free blocks. -/
theorem no_adjacent_free_witness :
    NoAdjacentFree (deallocate
      (run_ops 100 [Op.alloc 30, Op.alloc 40, Op.alloc 10, Op.dealloc 30]) 0) ∧
    NoAdjacentFree (compact_memory
      (run_ops 100 [Op.alloc 30, Op.alloc 40, Op.alloc 10, Op.dealloc 30]) 100
      [⟨70, 10, 9⟩, ⟨0, 30, 5⟩]).1 :=
  no_adjacent_free_after_deallocate_or_compact 100
    [Op.alloc 30, Op.alloc 40, Op.alloc 10, Op.dealloc 30]
    (by intro op hop; simp only [List.mem_cons, List.mem_singleton, List.not_mem_nil,
          or_false] at hop
        rcases hop with rfl | rfl | rfl | rfl <;> simp [Op.client])
    0 [⟨70, 10, 9⟩, ⟨0, 30, 5⟩]

/-! ## Compaction: layout, conservation, idempotence -/

theorem rebuild_layout_blocks (allocs : List MemoryBlock) (c : Int) (rs : List RunningProcess) :
    (rebuild_layout allocs c rs).1 = pack_from c allocs := by
  induction allocs generalizing c rs with
  | nil => rfl
  | cons b rest ih => simp only [rebuild_layout, pack_from, ih]

theorem rebuild_layout_end_total (bs : List MemoryBlock) (rs : List RunningProcess) :
    (rebuild_layout (collect_allocated bs) 0 rs).2.1 = total_allocated bs := by
  rw [rebuild_layout_end, collect_allocated_eq_filter, zero_add]
  rfl

theorem total_allocated_add_free (bs : List MemoryBlock) :
    total_allocated bs + calculate_total_free bs = (bs.map MemoryBlock.size).sum := by
  have h := collect_allocated_sum_add_free bs
  rw [collect_allocated_eq_filter] at h
  exact h

/-- C6 (compaction layout): on a list that satisfies the coverage invariant for `M`, the
block list produced by `compact_memory` is the Allocated blocks in their original order
with the same sizes, packed from address 0, followed by one Free block starting at the
total Allocated size and of size `M` minus that total, which is the total free size of the
input; the Free block is absent exactly when the total Allocated size is `M`. -/
theorem compact_memory_layout (bs : List MemoryBlock) (M : Int) (rs : List RunningProcess)
    (hcov : Coverage M bs) :
    (compact_memory bs M rs).1 = compact_layout bs M ∧
    M - total_allocated bs = calculate_total_free bs := by
  obtain ⟨_, htiles⟩ := (coverage_iff_tiles M bs).mp hcov
  have hpos := tiles_pos bs 0 M htiles
  have hsum := tiles_sum bs 0 M htiles
  have hsplit := total_allocated_add_free bs
  have hfree := calculate_total_free_nonneg bs hpos
  have hend := rebuild_layout_end_total bs rs
  have hblocks : (rebuild_layout (collect_allocated bs) 0 rs).1 = pack_from 0 (allocated bs) := by
    rw [rebuild_layout_blocks, collect_allocated_eq_filter]
    rfl
  refine ⟨?_, by omega⟩
  unfold compact_memory compact_layout
  simp only [hend, hblocks]
  by_cases hlt : total_allocated bs < M
  · have hne : total_allocated bs ≠ M := ne_of_lt hlt
    simp only [if_pos hlt, if_neg hne]
  · have heq : total_allocated bs = M := by omega
    simp only [if_neg hlt, if_pos heq, List.append_nil]

/-- Witness for C6: memory of 50 with Allocated blocks at 0 and 30. -/
theorem compact_memory_layout_witness :
    Coverage 50 [⟨0, 10, ALLOCATED⟩, ⟨10, 20, FREE⟩, ⟨30, 10, ALLOCATED⟩, ⟨40, 10, FREE⟩] ∧
    (compact_memory [⟨0, 10, ALLOCATED⟩, ⟨10, 20, FREE⟩, ⟨30, 10, ALLOCATED⟩, ⟨40, 10, FREE⟩]
        50 [⟨30, 10, 8⟩, ⟨0, 10, 6⟩]).1 =
      compact_layout
        [⟨0, 10, ALLOCATED⟩, ⟨10, 20, FREE⟩, ⟨30, 10, ALLOCATED⟩, ⟨40, 10, FREE⟩] 50 ∧
    50 - total_allocated
        [⟨0, 10, ALLOCATED⟩, ⟨10, 20, FREE⟩, ⟨30, 10, ALLOCATED⟩, ⟨40, 10, FREE⟩] =
      calculate_total_free
        [⟨0, 10, ALLOCATED⟩, ⟨10, 20, FREE⟩, ⟨30, 10, ALLOCATED⟩, ⟨40, 10, FREE⟩] :=
  ⟨by simp [Coverage], compact_memory_layout _ 50 [⟨30, 10, 8⟩, ⟨0, 10, 6⟩] (by simp [Coverage])⟩

theorem allocated_pack_from (c : Int) (allocs : List MemoryBlock) :
    allocated (pack_from c allocs) = pack_from c allocs := by
  induction allocs generalizing c with
  | nil => rfl
  | cons b rest ih =>
    have := ih (c + b.size)
    unfold allocated at this ⊢
    simp only [pack_from, List.filter_cons, decide_True, if_true, this]

theorem pack_from_sizes (c : Int) (allocs : List MemoryBlock) :
    (pack_from c allocs).map MemoryBlock.size = allocs.map MemoryBlock.size := by
  induction allocs generalizing c with
  | nil => rfl
  | cons b rest ih => simp only [pack_from, List.map_cons, ih]

theorem allocated_compact_memory (bs : List MemoryBlock) (M : Int) (rs : List RunningProcess) :
    allocated (compact_memory bs M rs).1 = pack_from 0 (allocated bs) := by
  have hblocks : (rebuild_layout (collect_allocated bs) 0 rs).1 = pack_from 0 (allocated bs) := by
    rw [rebuild_layout_blocks, collect_allocated_eq_filter]
    rfl
  unfold compact_memory
  by_cases hlt : (rebuild_layout (collect_allocated bs) 0 rs).2.1 < M
  · simp only [if_pos hlt, hblocks]
    have happ : allocated (pack_from 0 (allocated bs) ++
        [⟨(rebuild_layout (collect_allocated bs) 0 rs).2.1,
          M - (rebuild_layout (collect_allocated bs) 0 rs).2.1, FREE⟩]) =
        allocated (pack_from 0 (allocated bs)) := by
      unfold allocated
      simp [List.filter_append]
    rw [happ, allocated_pack_from]
  · simp only [if_neg hlt, hblocks]
    exact allocated_pack_from _ _

/-- C9 (conservation): for every block list, `compact_memory` keeps the sequence of sizes
of the Allocated blocks in list order, hence their multiset and the total Allocated size;
no Allocated block is dropped, duplicated or resized. -/
theorem compact_memory_conserves_allocated (bs : List MemoryBlock) (M : Int)
    (rs : List RunningProcess) :
    (allocated (compact_memory bs M rs).1).map MemoryBlock.size =
      (allocated bs).map MemoryBlock.size ∧
    (((allocated (compact_memory bs M rs).1).map MemoryBlock.size : List Int) : Multiset Int) =
      (((allocated bs).map MemoryBlock.size : List Int) : Multiset Int) ∧
    total_allocated (compact_memory bs M rs).1 = total_allocated bs := by
  have hseq : (allocated (compact_memory bs M rs).1).map MemoryBlock.size =
      (allocated bs).map MemoryBlock.size := by
    rw [allocated_compact_memory, pack_from_sizes]
  refine ⟨hseq, by rw [hseq], ?_⟩
  unfold total_allocated
  rw [hseq]

theorem update_running_same (rs : List RunningProcess) (c : Int) :
    update_running rs c c = rs := by
  induction rs with
  | nil => rfl
  | cons r rest ih =>
    by_cases hr : r.start = c
    · simp only [update_running, if_pos hr]
      rw [← hr]
    · simp only [update_running, if_neg hr, ih]

theorem rebuild_layout_pack_from (allocs : List MemoryBlock) (c : Int)
    (rs : List RunningProcess) :
    rebuild_layout (pack_from c allocs) c rs =
      (pack_from c allocs, c + (allocs.map MemoryBlock.size).sum, rs) := by
  induction allocs generalizing c with
  | nil => simp [pack_from, rebuild_layout]
  | cons b rest ih =>
    simp only [pack_from, rebuild_layout, update_running_same, ih, List.map_cons,
      List.sum_cons]
    rw [add_assoc]

theorem collect_allocated_compact_memory (bs : List MemoryBlock) (M : Int)
    (rs : List RunningProcess) :
    collect_allocated (compact_memory bs M rs).1 = pack_from 0 (collect_allocated bs) := by
  have h := allocated_compact_memory bs M rs
  unfold allocated at h
  rw [collect_allocated_eq_filter, h, collect_allocated_eq_filter]

theorem compact_memory_unfold (bs : List MemoryBlock) (M : Int) (rs : List RunningProcess) :
    compact_memory bs M rs =
      if (rebuild_layout (collect_allocated bs) 0 rs).2.1 < M then
        ((rebuild_layout (collect_allocated bs) 0 rs).1 ++
          [⟨(rebuild_layout (collect_allocated bs) 0 rs).2.1,
            M - (rebuild_layout (collect_allocated bs) 0 rs).2.1, FREE⟩],
          (rebuild_layout (collect_allocated bs) 0 rs).2.2)
      else ((rebuild_layout (collect_allocated bs) 0 rs).1,
          (rebuild_layout (collect_allocated bs) 0 rs).2.2) := rfl

theorem compact_memory_running (bs : List MemoryBlock) (M : Int) (rs : List RunningProcess) :
    (compact_memory bs M rs).2 = (rebuild_layout (collect_allocated bs) 0 rs).2.2 := by
  rw [compact_memory_unfold]
  by_cases hlt : (rebuild_layout (collect_allocated bs) 0 rs).2.1 < M
  · simp only [if_pos hlt]
  · simp only [if_neg hlt]

/-- C8 (compaction idempotence): for every block list, running list and memory size, a
second `compact_memory` right after the first returns the same block list and the same
running list (so the same start addresses) as the first. -/
theorem compact_memory_idempotent (bs : List MemoryBlock) (M : Int)
    (rs : List RunningProcess) :
    compact_memory (compact_memory bs M rs).1 M (compact_memory bs M rs).2 =
      compact_memory bs M rs := by
  have hcollect := collect_allocated_compact_memory bs M rs
  have hrun := compact_memory_running bs M rs
  have hfirst := compact_memory_unfold bs M rs
  rw [rebuild_layout_end, rebuild_layout_blocks] at hfirst
  generalize compact_memory bs M rs = res at hcollect hrun hfirst ⊢
  rw [compact_memory_unfold res.1 M res.2, hcollect, rebuild_layout_pack_from, hfirst]
  by_cases hlt : (0 : Int) + ((collect_allocated bs).map MemoryBlock.size).sum < M
  · simp only [if_pos hlt]
  · simp only [if_neg hlt]

/-! ## `deallocate` -/

theorem mark_free_none_of_no_hit (bs : List MemoryBlock) (start_addr : Int)
    (h : ∀ b ∈ bs, ¬ (b.start = start_addr ∧ b.status = ALLOCATED)) :
    mark_free bs start_addr = none := by
  induction bs with
  | nil => rfl
  | cons b rest ih =>
    have hb := h b (List.mem_cons_self _ _)
    have hrest := ih (fun x hx => h x (List.mem_cons_of_mem _ hx))
    simp only [mark_free, if_neg hb, hrest, Option.map_none']

theorem mark_free_at_first_hit (pre post : List MemoryBlock) (b : MemoryBlock)
    (start_addr : Int)
    (hpre : ∀ x ∈ pre, ¬ (x.start = start_addr ∧ x.status = ALLOCATED))
    (hb : b.start = start_addr ∧ b.status = ALLOCATED) :
    mark_free (pre ++ b :: post) start_addr = some (pre ++ ⟨b.start, b.size, FREE⟩ :: post) := by
  induction pre with
  | nil => simp only [List.nil_append, mark_free, if_pos hb]
  | cons p pre ih =>
    have hp := hpre p (List.mem_cons_self _ _)
    have hrest := ih (fun x hx => hpre x (List.mem_cons_of_mem _ hx))
    rw [List.cons_append, mark_free, if_neg hp, hrest]
    rfl

/-- A miss does not run the merge: the address 0 belongs to a Free block, the list has two
adjacent Free blocks, and `deallocate` returns it as it is although `merge_free_blocks`
would have joined them. -/
theorem deallocate_miss_skips_merge :
    deallocate [⟨0, 10, FREE⟩, ⟨10, 10, FREE⟩, ⟨20, 5, ALLOCATED⟩] 0 =
      [⟨0, 10, FREE⟩, ⟨10, 10, FREE⟩, ⟨20, 5, ALLOCATED⟩] ∧
    merge_free_blocks [⟨0, 10, FREE⟩, ⟨10, 10, FREE⟩, ⟨20, 5, ALLOCATED⟩] =
      [⟨0, 20, FREE⟩, ⟨20, 5, ALLOCATED⟩] := by
  constructor <;> decide

/-- C10 (unknown handle): when no Allocated block starts at `start_addr` (a Free block may
start there), `deallocate` returns the block list exactly as given, unmerged; otherwise the
first Allocated block with that start is re-marked Free and the result is
`merge_free_blocks` of the list with that one block re-marked. -/
theorem deallocate_unknown_is_noop (bs : List MemoryBlock) (start_addr : Int) :
    ((∀ b ∈ bs, ¬ (b.start = start_addr ∧ b.status = ALLOCATED)) →
      deallocate bs start_addr = bs) ∧
    (∀ pre b post, bs = pre ++ b :: post →
      (∀ x ∈ pre, ¬ (x.start = start_addr ∧ x.status = ALLOCATED)) →
      b.start = start_addr → b.status = ALLOCATED →
      deallocate bs start_addr =
        merge_free_blocks (pre ++ ⟨b.start, b.size, FREE⟩ :: post)) := by
  constructor
  · intro h
    unfold deallocate
    rw [mark_free_none_of_no_hit bs start_addr h]
  · intro pre b post hsplit hpre hstart hstatus
    unfold deallocate
    rw [hsplit, mark_free_at_first_hit pre post b start_addr hpre ⟨hstart, hstatus⟩]

/-! ## Compaction and the running records -/

theorem ascendingFrom_mono (l : List MemoryBlock) (lo lo' : Int) (hle : lo' ≤ lo)
    (h : AscendingFrom lo l) : AscendingFrom lo' l := by
  cases l with
  | nil => trivial
  | cons b rest => exact ⟨le_trans hle h.1, h.2.1, h.2.2⟩

theorem ascendingFrom_collect (bs : List MemoryBlock) (lo hi : Int) (h : Tiles lo hi bs) :
    AscendingFrom lo (collect_allocated bs) := by
  induction bs generalizing lo with
  | nil => trivial
  | cons b rest ih =>
    obtain ⟨hb, hpos, hrest⟩ := h
    have hnext := ih _ hrest
    by_cases hst : b.status = ALLOCATED
    · simp only [collect_allocated, if_pos hst]
      refine ⟨le_of_eq hb.symm, hpos, ?_⟩
      show AscendingFrom (b.start + b.size) (collect_allocated rest)
      rw [hb]
      exact hnext
    · simp only [collect_allocated, if_neg hst]
      exact ascendingFrom_mono _ _ lo (by omega) hnext

theorem ascendingFrom_start_ge (l : List MemoryBlock) (lo : Int) (h : AscendingFrom lo l) :
    ∀ b ∈ l, lo ≤ b.start := by
  induction l generalizing lo with
  | nil => intro b hb; cases hb
  | cons c rest ih =>
    obtain ⟨hc, hpos, hrest⟩ := h
    intro b hb
    rcases List.mem_cons.mp hb with rfl | hb
    · exact hc
    · have := ih _ hrest b hb
      omega

theorem new_start_below (l : List MemoryBlock) (lo c addr : Int) (h : AscendingFrom lo l)
    (hlt : addr < lo) : new_start l c addr = addr := by
  induction l generalizing lo c with
  | nil => rfl
  | cons b rest ih =>
    obtain ⟨hb, hpos, hrest⟩ := h
    have hne : ¬ b.start = addr := by omega
    simp only [new_start, if_neg hne]
    exact ih _ _ hrest (by omega)

theorem ascendingFrom_nodup (l : List MemoryBlock) (lo : Int) (h : AscendingFrom lo l) :
    (l.map MemoryBlock.start).Nodup := by
  induction l generalizing lo with
  | nil => exact List.nodup_nil
  | cons b rest ih =>
    obtain ⟨_, hpos, hrest⟩ := h
    rw [List.map_cons, List.nodup_cons]
    refine ⟨?_, ih _ hrest⟩
    intro hmem
    obtain ⟨x, hx, hxs⟩ := List.mem_map.mp hmem
    have := ascendingFrom_start_ge rest _ hrest x hx
    omega

theorem update_running_eq_map (rs : List RunningProcess) (old_start curr_start : Int)
    (h : rs.Pairwise (fun r s => r.start = old_start → s.start ≠ old_start)) :
    update_running rs old_start curr_start =
      rs.map (fun r => if r.start = old_start then ⟨curr_start, r.size, r.finish_time⟩ else r) := by
  induction rs with
  | nil => rfl
  | cons r rest ih =>
    obtain ⟨hhead, htail⟩ := List.pairwise_cons.mp h
    by_cases hr : r.start = old_start
    · have hrest : rest.map (fun s : RunningProcess =>
          if s.start = old_start then ⟨curr_start, s.size, s.finish_time⟩ else s) = rest := by
        conv_rhs => rw [← List.map_id rest]
        apply List.map_congr_left
        intro s hs
        simp only [if_neg (hhead s hs hr), id]
      simp only [update_running, if_pos hr, List.map_cons, hrest]
    · simp only [update_running, if_neg hr, List.map_cons, ih htail]

theorem rebuild_layout_running (allocs : List MemoryBlock) (c lo : Int)
    (rs : List RunningProcess) (hc : c ≤ lo) (hasc : AscendingFrom lo allocs)
    (hd : DistinctFrom lo rs) :
    (rebuild_layout allocs c rs).2.2 =
      rs.map (fun r => ⟨new_start allocs c r.start, r.size, r.finish_time⟩) := by
  induction allocs generalizing c lo rs with
  | nil => exact (List.map_id rs).symm
  | cons b rest ih =>
    obtain ⟨hlo, hpos, hrest⟩ := hasc
    have hupd := update_running_eq_map rs b.start c
      (hd.imp (fun {r s} hrs hr => by
        have := hrs (by omega)
        omega))
    have hd' : DistinctFrom (b.start + b.size)
        (rs.map (fun r => if r.start = b.start then ⟨c, r.size, r.finish_time⟩ else r)) := by
      refine List.pairwise_map.mpr (hd.imp (fun {r s} hrs => ?_))
      by_cases hr : r.start = b.start
      · simp only [if_pos hr]
        intro hge
        exfalso
        have : b.start + b.size ≤ c := hge
        omega
      · simp only [if_neg hr]
        intro hge
        have hne := hrs (by omega)
        by_cases hs : s.start = b.start
        · simp only [if_pos hs]
          show r.start ≠ c
          omega
        · simp only [if_neg hs]
          exact hne
    have hIH := ih (c + b.size) (b.start + b.size) _ (by omega) hrest hd'
    show (rebuild_layout rest (c + b.size) (update_running rs b.start c)).2.2 = _
    rw [hupd, hIH, List.map_map]
    apply List.map_congr_left
    intro r _
    by_cases hr : r.start = b.start
    · have hkeep : new_start rest (c + b.size) c = c :=
        new_start_below rest (b.start + b.size) _ c hrest (by omega)
      simp only [Function.comp, if_pos hr, new_start, if_pos hr.symm, hkeep]
    · have hr' : ¬ b.start = r.start := fun h => hr h.symm
      simp only [Function.comp, if_neg hr, new_start, if_neg hr']

theorem pack_from_keys (allocs : List MemoryBlock) (c lo : Int)
    (hasc : AscendingFrom lo allocs) :
    (pack_from c allocs).map MemoryBlock.key =
      allocs.map (fun b => (new_start allocs c b.start, b.size)) := by
  induction allocs generalizing c lo with
  | nil => rfl
  | cons b rest ih =>
    obtain ⟨_, hpos, hrest⟩ := hasc
    have htail : rest.map (fun x => (new_start (b :: rest) c x.start, x.size)) =
        rest.map (fun x => (new_start rest (c + b.size) x.start, x.size)) := by
      apply List.map_congr_left
      intro x hx
      have hge := ascendingFrom_start_ge rest _ hrest x hx
      have hne : ¬ b.start = x.start := by omega
      simp only [new_start, if_neg hne]
    simp only [pack_from, List.map_cons, htail, ih (c + b.size) _ hrest]
    simp only [MemoryBlock.key, new_start, if_true]

/-- C7 (lockstep relocation): on a block list that satisfies the coverage invariant and a
running list in one-to-one correspondence with the Allocated blocks by (start, size),
`compact_memory` gives every running record the new start of the block it occupied (each
record is rewritten once, by its own block), keeps its size and finish time, moves the
block formerly at each old start to that new start, and the correspondence holds for the
new block list and the new running list. -/
theorem compact_memory_relocates_in_lockstep (bs : List MemoryBlock) (M : Int)
    (rs : List RunningProcess) (hcov : Coverage M bs) (hcorr : Corresponds bs rs) :
    (compact_memory bs M rs).2 =
      rs.map (fun r => ⟨new_start (allocated bs) 0 r.start, r.size, r.finish_time⟩) ∧
    (allocated (compact_memory bs M rs).1).map MemoryBlock.key =
      (allocated bs).map (fun b => (new_start (allocated bs) 0 b.start, b.size)) ∧
    Corresponds (compact_memory bs M rs).1 (compact_memory bs M rs).2 := by
  obtain ⟨_, htiles⟩ := (coverage_iff_tiles M bs).mp hcov
  have hfilter : collect_allocated bs = allocated bs := collect_allocated_eq_filter bs
  have hasc : AscendingFrom 0 (allocated bs) := by
    rw [← hfilter]
    exact ascendingFrom_collect bs 0 M htiles
  have hstarts : (rs.map RunningProcess.start).Perm ((allocated bs).map MemoryBlock.start) := by
    have := List.Perm.map Prod.fst hcorr
    simpa only [List.map_map] using this
  have hnodup : (rs.map RunningProcess.start).Nodup :=
    (List.Perm.nodup_iff hstarts).mpr (ascendingFrom_nodup _ 0 hasc)
  have hd : DistinctFrom 0 rs := by
    have hpair : rs.Pairwise (fun r s => r.start ≠ s.start) := List.pairwise_map.mp hnodup
    unfold DistinctFrom
    refine List.Pairwise.imp ?_ hpair
    intro r s hne _
    exact hne
  have hrun : (compact_memory bs M rs).2 =
      rs.map (fun r => ⟨new_start (allocated bs) 0 r.start, r.size, r.finish_time⟩) := by
    rw [compact_memory_running, hfilter]
    exact rebuild_layout_running (allocated bs) 0 0 rs (le_refl _) hasc hd
  have hblocks : (allocated (compact_memory bs M rs).1).map MemoryBlock.key =
      (allocated bs).map (fun b => (new_start (allocated bs) 0 b.start, b.size)) := by
    rw [allocated_compact_memory]
    exact pack_from_keys (allocated bs) 0 0 hasc
  refine ⟨hrun, hblocks, ?_⟩
  unfold Corresponds
  rw [hblocks, hrun]
  have hmoved := List.Perm.map
    (fun p : Int × Int => (new_start (allocated bs) 0 p.1, p.2)) hcorr
  simpa only [List.map_map, Function.comp, RunningProcess.key, MemoryBlock.key] using hmoved

/-- Witness for C7: memory of 50, Allocated blocks at 0 and 30, running records listed in
the opposite order. -/
theorem compact_memory_relocates_witness :
    (compact_memory [⟨0, 10, ALLOCATED⟩, ⟨10, 20, FREE⟩, ⟨30, 10, ALLOCATED⟩, ⟨40, 10, FREE⟩]
        50 [⟨30, 10, 8⟩, ⟨0, 10, 6⟩]).2 =
      ([⟨30, 10, 8⟩, ⟨0, 10, 6⟩] : List RunningProcess).map (fun r =>
        ⟨new_start (allocated
          [⟨0, 10, ALLOCATED⟩, ⟨10, 20, FREE⟩, ⟨30, 10, ALLOCATED⟩, ⟨40, 10, FREE⟩]) 0 r.start,
          r.size, r.finish_time⟩) ∧
    (allocated (compact_memory
        [⟨0, 10, ALLOCATED⟩, ⟨10, 20, FREE⟩, ⟨30, 10, ALLOCATED⟩, ⟨40, 10, FREE⟩]
        50 [⟨30, 10, 8⟩, ⟨0, 10, 6⟩]).1).map MemoryBlock.key =
      (allocated
        [⟨0, 10, ALLOCATED⟩, ⟨10, 20, FREE⟩, ⟨30, 10, ALLOCATED⟩, ⟨40, 10, FREE⟩]).map
        (fun b => (new_start (allocated
          [⟨0, 10, ALLOCATED⟩, ⟨10, 20, FREE⟩, ⟨30, 10, ALLOCATED⟩, ⟨40, 10, FREE⟩]) 0 b.start,
          b.size)) ∧
    Corresponds
      (compact_memory [⟨0, 10, ALLOCATED⟩, ⟨10, 20, FREE⟩, ⟨30, 10, ALLOCATED⟩, ⟨40, 10, FREE⟩]
        50 [⟨30, 10, 8⟩, ⟨0, 10, 6⟩]).1
      (compact_memory [⟨0, 10, ALLOCATED⟩, ⟨10, 20, FREE⟩, ⟨30, 10, ALLOCATED⟩, ⟨40, 10, FREE⟩]
        50 [⟨30, 10, 8⟩, ⟨0, 10, 6⟩]).2 :=
  compact_memory_relocates_in_lockstep
    [⟨0, 10, ALLOCATED⟩, ⟨10, 20, FREE⟩, ⟨30, 10, ALLOCATED⟩, ⟨40, 10, FREE⟩] 50
    [⟨30, 10, 8⟩, ⟨0, 10, 6⟩] (by simp [Coverage]) (by decide)

/-! ## Scenarios A and B -/

/-- C11 (scenario A): from `initialize_memory 100`, allocating 30 succeeds at 0, allocating
40 succeeds at 30, `deallocate 0` frees the first block, and allocating 20 succeeds at 0,
leaving `[(0,20,Allocated), (20,10,Free), (30,40,Allocated), (70,30,Free)]`. -/
theorem scenario_A :
    allocate_first_fit (initialize_memory 100) 30 =
      (some 0, [⟨0, 30, ALLOCATED⟩, ⟨30, 70, FREE⟩]) ∧
    allocate_first_fit [⟨0, 30, ALLOCATED⟩, ⟨30, 70, FREE⟩] 40 =
      (some 30, [⟨0, 30, ALLOCATED⟩, ⟨30, 40, ALLOCATED⟩, ⟨70, 30, FREE⟩]) ∧
    deallocate [⟨0, 30, ALLOCATED⟩, ⟨30, 40, ALLOCATED⟩, ⟨70, 30, FREE⟩] 0 =
      [⟨0, 30, FREE⟩, ⟨30, 40, ALLOCATED⟩, ⟨70, 30, FREE⟩] ∧
    allocate_first_fit [⟨0, 30, FREE⟩, ⟨30, 40, ALLOCATED⟩, ⟨70, 30, FREE⟩] 20 =
      (some 0, [⟨0, 20, ALLOCATED⟩, ⟨20, 10, FREE⟩, ⟨30, 40, ALLOCATED⟩, ⟨70, 30, FREE⟩]) := by
  refine ⟨?_, ?_, ?_, ?_⟩ <;> decide

/-- C12 (scenario B): with memory 50, blocks
`[(0,10,Allocated), (10,20,Free), (30,10,Allocated), (40,10,Free)]` and running records at
starts 0 and 30 (in either list order), a request of 25 fails first-fit; `retry_waiting` on
a queue holding one process of size 25 compacts once and places it at 20: the blocks become
`[(0,10,Allocated), (10,10,Allocated), (20,25,Allocated), (45,5,Free)]`, the record formerly
at 30 is at 10, a record `(20, 25, current_time + burst_time)` is added, the queue is empty
and `alloc_count` is one more. -/
theorem scenario_B (arrival burst pid attempts current_time f0 f30 : Int) (alloc_count : Nat) :
    (allocate_first_fit
      [⟨0, 10, ALLOCATED⟩, ⟨10, 20, FREE⟩, ⟨30, 10, ALLOCATED⟩, ⟨40, 10, FREE⟩] 25).1 = none ∧
    retry_waiting current_time 50 [⟨⟨arrival, 25, burst, pid⟩, attempts⟩]
      [⟨0, 10, ALLOCATED⟩, ⟨10, 20, FREE⟩, ⟨30, 10, ALLOCATED⟩, ⟨40, 10, FREE⟩]
      [⟨30, 10, f30⟩, ⟨0, 10, f0⟩] alloc_count =
      ⟨[], [⟨0, 10, ALLOCATED⟩, ⟨10, 10, ALLOCATED⟩, ⟨20, 25, ALLOCATED⟩, ⟨45, 5, FREE⟩],
        [⟨20, 25, current_time + burst⟩, ⟨10, 10, f30⟩, ⟨0, 10, f0⟩], alloc_count + 1⟩ ∧
    retry_waiting current_time 50 [⟨⟨arrival, 25, burst, pid⟩, attempts⟩]
      [⟨0, 10, ALLOCATED⟩, ⟨10, 20, FREE⟩, ⟨30, 10, ALLOCATED⟩, ⟨40, 10, FREE⟩]
      [⟨0, 10, f0⟩, ⟨30, 10, f30⟩] alloc_count =
      ⟨[], [⟨0, 10, ALLOCATED⟩, ⟨10, 10, ALLOCATED⟩, ⟨20, 25, ALLOCATED⟩, ⟨45, 5, FREE⟩],
        [⟨20, 25, current_time + burst⟩, ⟨0, 10, f0⟩, ⟨10, 10, f30⟩], alloc_count + 1⟩ ∧
    (placement_rounds ⟨arrival, 25, burst, pid⟩ current_time 50 3
      [⟨0, 10, ALLOCATED⟩, ⟨10, 20, FREE⟩, ⟨30, 10, ALLOCATED⟩, ⟨40, 10, FREE⟩]
      [⟨30, 10, f30⟩, ⟨0, 10, f0⟩]).compactions = 1 ∧
    (placement_rounds ⟨arrival, 25, burst, pid⟩ current_time 50 3
      [⟨0, 10, ALLOCATED⟩, ⟨10, 20, FREE⟩, ⟨30, 10, ALLOCATED⟩, ⟨40, 10, FREE⟩]
      [⟨0, 10, f0⟩, ⟨30, 10, f30⟩]).compactions = 1 := by
  refine ⟨by decide, ?_, ?_, ?_, ?_⟩ <;> rfl

/-! ## `merge_free_blocks` is idempotent -/

theorem merge_from_of_noAdjacentFree (cur : MemoryBlock) (rest : List MemoryBlock)
    (h : NoAdjacentFree (cur :: rest)) : merge_from cur rest = cur :: rest := by
  induction rest generalizing cur with
  | nil => rfl
  | cons n rest ih =>
    obtain ⟨hhead, htail⟩ := List.chain'_cons.mp h
    simp only [merge_from, if_neg hhead, ih n htail]

theorem merge_free_blocks_of_noAdjacentFree (bs : List MemoryBlock)
    (h : NoAdjacentFree bs) : merge_free_blocks bs = bs := by
  cases bs with
  | nil => rfl
  | cons b rest => exact merge_from_of_noAdjacentFree b rest h

/-- C18 (merge idempotence): for every block list, one pass of `merge_free_blocks` leaves
no two consecutive Free blocks, and a second pass returns the result of the first. -/
theorem merge_free_blocks_idempotent (L : List MemoryBlock) :
    NoAdjacentFree (merge_free_blocks L) ∧
    merge_free_blocks (merge_free_blocks L) = merge_free_blocks L :=
  ⟨noAdjacentFree_merge_free_blocks L,
    merge_free_blocks_of_noAdjacentFree _ (noAdjacentFree_merge_free_blocks L)⟩

/-- A run of three Free blocks is joined into one by a single pass. -/
theorem merge_free_blocks_run_of_three :
    merge_free_blocks [⟨0, 10, FREE⟩, ⟨10, 20, FREE⟩, ⟨30, 5, FREE⟩, ⟨35, 15, ALLOCATED⟩] =
      [⟨0, 35, FREE⟩, ⟨35, 15, ALLOCATED⟩] := by
  decide

/-! ## Bookkeeping of `retry_waiting` -/

theorem retry_placed_length (t M : Int) (q : List WaitingProcess) (mem : List MemoryBlock)
    (run : List RunningProcess) : (retry_placed t M q mem run).length = q.length := by
  induction q generalizing mem run with
  | nil => rfl
  | cons w rest ih => simp only [retry_placed, List.length_cons, ih]

theorem retry_waiting_waiting (t M : Int) (q : List WaitingProcess) (mem : List MemoryBlock)
    (run : List RunningProcess) (ac : Nat) :
    (retry_waiting t M q mem run ac).waiting =
      ((q.zip (retry_placed t M q mem run)).filter (fun x => !x.2)).map
        (fun x => ⟨x.1.process, x.1.attempts + 1⟩) := by
  induction q generalizing mem run ac with
  | nil => rfl
  | cons w rest ih =>
    cases hflag : (placement_rounds w.process t M 3 mem run).allocated with
    | true =>
      simp only [retry_waiting, retry_placed, hflag, if_true, List.zip_cons_cons,
        List.filter_cons, Bool.not_true, Bool.false_eq_true, if_false]
      exact ih _ _ _
    | false =>
      simp only [retry_waiting, retry_placed, hflag, Bool.false_eq_true, if_false,
        List.zip_cons_cons, List.filter_cons, Bool.not_false, if_true, List.map_cons, ih]

theorem retry_waiting_alloc_count (t M : Int) (q : List WaitingProcess)
    (mem : List MemoryBlock) (run : List RunningProcess) (ac : Nat) :
    (retry_waiting t M q mem run ac).alloc_count =
      ac + (retry_placed t M q mem run).count true := by
  induction q generalizing mem run ac with
  | nil => rfl
  | cons w rest ih =>
    cases hflag : (placement_rounds w.process t M 3 mem run).allocated with
    | true =>
      simp only [retry_waiting, retry_placed, hflag, if_true, List.count_cons_self, ih]
      omega
    | false =>
      simp only [retry_waiting, retry_placed, hflag, Bool.false_eq_true, if_false, ih]
      rw [List.count_cons_of_ne (by decide)]

theorem retry_waiting_sublist (t M : Int) (q : List WaitingProcess) (mem : List MemoryBlock)
    (run : List RunningProcess) (ac : Nat) :
    ((retry_waiting t M q mem run ac).waiting.map (fun w => (w.process, w.attempts))).Sublist
      (q.map (fun w => (w.process, w.attempts + 1))) := by
  induction q generalizing mem run ac with
  | nil => exact List.Sublist.slnil
  | cons w rest ih =>
    cases hflag : (placement_rounds w.process t M 3 mem run).allocated with
    | true =>
      simp only [retry_waiting, hflag, if_true, List.map_cons]
      exact List.Sublist.cons _ (ih _ _ _)
    | false =>
      simp only [retry_waiting, hflag, Bool.false_eq_true, if_false, List.map_cons]
      exact List.Sublist.cons₂ _ (ih _ _ _)

theorem update_running_profile (rs : List RunningProcess) (old_start curr_start : Int) :
    (update_running rs old_start curr_start).map (fun r => (r.size, r.finish_time)) =
      rs.map (fun r => (r.size, r.finish_time)) := by
  induction rs with
  | nil => rfl
  | cons r rest ih =>
    by_cases hr : r.start = old_start
    · simp only [update_running, if_pos hr, List.map_cons]
    · simp only [update_running, if_neg hr, List.map_cons, ih]

theorem rebuild_layout_profile (allocs : List MemoryBlock) (c : Int) (rs : List RunningProcess) :
    (rebuild_layout allocs c rs).2.2.map (fun r => (r.size, r.finish_time)) =
      rs.map (fun r => (r.size, r.finish_time)) := by
  induction allocs generalizing c rs with
  | nil => rfl
  | cons b rest ih =>
    simp only [rebuild_layout, ih, update_running_profile]

theorem compact_memory_profile (bs : List MemoryBlock) (M : Int) (rs : List RunningProcess) :
    (compact_memory bs M rs).2.map (fun r => (r.size, r.finish_time)) =
      rs.map (fun r => (r.size, r.finish_time)) := by
  rw [compact_memory_running, rebuild_layout_profile]

theorem placement_rounds_profile (p : Process) (t M : Int) (rounds : Nat)
    (mem : List MemoryBlock) (run : List RunningProcess) :
    (placement_rounds p t M rounds mem run).running.map (fun r => (r.size, r.finish_time)) =
      (if (placement_rounds p t M rounds mem run).allocated
        then [(p.size, t + p.burst_time)] else []) ++
        run.map (fun r => (r.size, r.finish_time)) := by
  induction rounds generalizing mem run with
  | zero => simp [placement_rounds]
  | succ n ih =>
    by_cases hfree : calculate_total_free mem < p.size
    · simp [placement_rounds, if_pos hfree]
    · cases halloc : (allocate_first_fit mem p.size).1 with
      | some a =>
        simp [placement_rounds, if_neg hfree, halloc, add_running_process]
      | none =>
        have hge : calculate_total_free mem ≥ p.size := not_lt.mp hfree
        simp only [placement_rounds, if_neg hfree, halloc, if_pos hge]
        rw [ih, compact_memory_profile]

theorem placement_rounds_length (p : Process) (t M : Int) (rounds : Nat)
    (mem : List MemoryBlock) (run : List RunningProcess) :
    (placement_rounds p t M rounds mem run).running.length =
      run.length + (if (placement_rounds p t M rounds mem run).allocated then 1 else 0) := by
  have h := congrArg List.length (placement_rounds_profile p t M rounds mem run)
  simp only [List.length_map, List.length_append] at h
  rw [h]
  cases (placement_rounds p t M rounds mem run).allocated
  · simp
  · simp
    omega

theorem retry_waiting_running_length (t M : Int) (q : List WaitingProcess)
    (mem : List MemoryBlock) (run : List RunningProcess) (ac : Nat) :
    (retry_waiting t M q mem run ac).running.length =
      run.length + (retry_placed t M q mem run).count true := by
  induction q generalizing mem run ac with
  | nil => rfl
  | cons w rest ih =>
    have hlen := placement_rounds_length w.process t M 3 mem run
    cases hflag : (placement_rounds w.process t M 3 mem run).allocated with
    | true =>
      rw [hflag] at hlen
      simp only [retry_waiting, retry_placed, hflag, if_true, List.count_cons_self, ih, hlen]
      omega
    | false =>
      rw [hflag] at hlen
      simp only [retry_waiting, retry_placed, hflag, Bool.false_eq_true, if_false, ih, hlen]
      rw [List.count_cons_of_ne (by decide)]
      omega

/-- C14 (retry bookkeeping): after one `retry_waiting` call the queue is the entries that
were not placed, in their original order, each with the same process and `attempts` one
more; placed entries are gone; `alloc_count` has grown by the number of placed entries,
and so has the running list. -/
theorem retry_waiting_bookkeeping (t M : Int) (q : List WaitingProcess)
    (mem : List MemoryBlock) (run : List RunningProcess) (ac : Nat) :
    (retry_placed t M q mem run).length = q.length ∧
    (retry_waiting t M q mem run ac).waiting =
      ((q.zip (retry_placed t M q mem run)).filter (fun x => !x.2)).map
        (fun x => ⟨x.1.process, x.1.attempts + 1⟩) ∧
    ((retry_waiting t M q mem run ac).waiting.map (fun w => (w.process, w.attempts))).Sublist
      (q.map (fun w => (w.process, w.attempts + 1))) ∧
    (retry_waiting t M q mem run ac).alloc_count =
      ac + (retry_placed t M q mem run).count true ∧
    (retry_waiting t M q mem run ac).running.length =
      run.length + (retry_placed t M q mem run).count true ∧
    (retry_waiting t M q mem run ac).waiting.length + (retry_placed t M q mem run).count true =
      q.length := by
  refine ⟨retry_placed_length t M q mem run, retry_waiting_waiting t M q mem run ac,
    retry_waiting_sublist t M q mem run ac, retry_waiting_alloc_count t M q mem run ac,
    retry_waiting_running_length t M q mem run ac, ?_⟩
  induction q generalizing mem run ac with
  | nil => rfl
  | cons w rest ih =>
    cases hflag : (placement_rounds w.process t M 3 mem run).allocated with
    | true =>
      have := ih (placement_rounds w.process t M 3 mem run).memory
        (placement_rounds w.process t M 3 mem run).running (ac + 1)
      simp only [retry_waiting, retry_placed, hflag, if_true, List.count_cons_self,
        List.length_cons]
      omega
    | false =>
      have := ih (placement_rounds w.process t M 3 mem run).memory
        (placement_rounds w.process t M 3 mem run).running ac
      simp only [retry_waiting, retry_placed, hflag, Bool.false_eq_true, if_false,
        List.length_cons]
      rw [List.count_cons_of_ne (by decide)]
      omega

/-! ## Accounting in the driver -/

theorem drop_eq_cons (ps : List Process) (n : Nat) (p : Process) (rest : List Process)
    (h : ps.drop n = p :: rest) :
    n < ps.length ∧ ps.take (n + 1) = ps.take n ++ [p] ∧ ps.drop (n + 1) = rest := by
  induction ps generalizing n with
  | nil => simp at h
  | cons a tl ih =>
    cases n with
    | zero =>
      simp only [List.drop_zero, List.cons.injEq] at h
      obtain ⟨rfl, rfl⟩ := h
      simp
    | succ m =>
      simp only [List.drop_succ_cons] at h
      obtain ⟨h1, h2, h3⟩ := ih m h
      refine ⟨by simpa using h1, ?_, ?_⟩
      · simp only [List.take_succ_cons, h2, List.cons_append]
      · simpa using h3

theorem rejected_append_singleton (M : Int) (ps : List Process) (p : Process) :
    rejected M (ps ++ [p]) = rejected M ps + (if p.size > M then 1 else 0) := by
  unfold rejected
  by_cases hp : p.size > M
  · simp [List.filter_append, hp]
  · simp [List.filter_append, hp]

theorem admissible_append_singleton (M : Int) (ps : List Process) (p : Process) :
    admissible M (ps ++ [p]) = admissible M ps + (if p.size > M then 0 else 1) := by
  unfold admissible
  by_cases hp : p.size > M
  · have hle : ¬ p.size ≤ M := not_le.mpr hp
    simp [List.filter_append, hp, hle]
  · have hle : p.size ≤ M := not_lt.mp hp
    simp [List.filter_append, hp, hle]

theorem rejected_add_admissible (M : Int) (ps : List Process) :
    rejected M ps + admissible M ps = ps.length := by
  induction ps with
  | nil => rfl
  | cons p rest ih =>
    unfold rejected admissible at ih ⊢
    by_cases hp : p.size > M
    · have hle : ¬ p.size ≤ M := not_le.mpr hp
      simp only [List.filter_cons, hp, hle, decide_True, decide_False, if_true,
        Bool.false_eq_true, if_false, List.length_cons]
      omega
    · have hle : p.size ≤ M := not_lt.mp hp
      simp only [List.filter_cons, hp, hle, decide_True, decide_False, if_true,
        Bool.false_eq_true, if_false, List.length_cons]
      omega

theorem admit_one_rejects (M : Int) (p : Process) (s : SimState) (hp : p.size > M) :
    admit_one M p s =
      ⟨s.memory, s.active, s.waiting, s.current_time, s.alloc_count, s.process_idx + 1⟩ := by
  simp only [admit_one, if_pos hp]

theorem admit_one_process_idx (M : Int) (p : Process) (s : SimState) :
    (admit_one M p s).process_idx = s.process_idx + 1 := by
  unfold admit_one
  by_cases hp : p.size > M
  · simp only [if_pos hp]
  · simp only [if_neg hp]
    cases (allocate_first_fit s.memory p.size).1 <;> rfl

theorem admit_one_current_time (M : Int) (p : Process) (s : SimState) :
    (admit_one M p s).current_time = s.current_time := by
  unfold admit_one
  by_cases hp : p.size > M
  · simp only [if_pos hp]
  · simp only [if_neg hp]
    cases (allocate_first_fit s.memory p.size).1 <;> rfl

theorem admit_one_count (M : Int) (p : Process) (s : SimState) :
    (admit_one M p s).alloc_count + (admit_one M p s).waiting.length =
      s.alloc_count + s.waiting.length + (if p.size > M then 0 else 1) := by
  unfold admit_one
  by_cases hp : p.size > M
  · simp only [if_pos hp]
    omega
  · simp only [if_neg hp]
    cases (allocate_first_fit s.memory p.size).1 with
    | none => simp only [add_to_waiting, List.length_append, List.length_singleton]; omega
    | some a => simp only; omega

theorem accounted_admit_arrivals (M : Int) (ps rest : List Process) (s : SimState)
    (hrest : ps.drop s.process_idx = rest) (h : Accounted M ps s) :
    Accounted M ps (admit_arrivals M rest s) := by
  induction rest generalizing s with
  | nil => exact h
  | cons p rest ih =>
    by_cases harr : p.arrival_time ≤ s.current_time
    · simp only [admit_arrivals, if_pos harr]
      obtain ⟨hlt, htake, hdrop⟩ := drop_eq_cons ps s.process_idx p rest hrest
      apply ih
      · rw [admit_one_process_idx]; exact hdrop
      · obtain ⟨_, hacc⟩ := h
        have hcount := admit_one_count M p s
        refine ⟨by rw [admit_one_process_idx]; omega, ?_⟩
        rw [admit_one_process_idx, htake, rejected_append_singleton]
        by_cases hp : p.size > M
        · simp only [if_pos hp] at hcount ⊢
          omega
        · simp only [if_neg hp] at hcount ⊢
          omega
    · simp only [admit_arrivals, if_neg harr]
      exact h

theorem retry_waiting_count (t M : Int) (q : List WaitingProcess) (mem : List MemoryBlock)
    (run : List RunningProcess) (ac : Nat) :
    (retry_waiting t M q mem run ac).alloc_count + (retry_waiting t M q mem run ac).waiting.length =
      ac + q.length := by
  induction q generalizing mem run ac with
  | nil => rfl
  | cons w rest ih =>
    cases hflag : (placement_rounds w.process t M 3 mem run).allocated with
    | true =>
      simp only [retry_waiting, hflag, if_true, List.length_cons, ih]
      omega
    | false =>
      have := ih (placement_rounds w.process t M 3 mem run).memory
        (placement_rounds w.process t M 3 mem run).running ac
      simp only [retry_waiting, hflag, Bool.false_eq_true, if_false, List.length_cons]
      omega

theorem accounted_tick (M : Int) (ps : List Process) (s : SimState) (h : Accounted M ps s) :
    Accounted M ps (tick M ps s) := by
  have hexp : Accounted M ps (expire s) := h
  have hadm : Accounted M ps (arrivals_step M ps (expire s)) :=
    accounted_admit_arrivals M ps _ (expire s) rfl hexp
  obtain ⟨hle, hacc⟩ := hadm
  have hcount := retry_waiting_count (arrivals_step M ps (expire s)).current_time M
    (arrivals_step M ps (expire s)).waiting (arrivals_step M ps (expire s)).memory
    (arrivals_step M ps (expire s)).active (arrivals_step M ps (expire s)).alloc_count
  refine ⟨hle, ?_⟩
  show (retry M (arrivals_step M ps (expire s))).alloc_count +
      (retry M (arrivals_step M ps (expire s))).waiting.length +
      rejected M (ps.take (arrivals_step M ps (expire s)).process_idx) =
      (arrivals_step M ps (expire s)).process_idx
  simp only [retry]
  omega

theorem accounted_reached (M : Int) (ps : List Process) (s : SimState)
    (h : Reached M ps s) : Accounted M ps s := by
  induction h with
  | start => exact ⟨Nat.zero_le _, rfl⟩
  | next s _ _ ih => exact accounted_tick M ps s ih

theorem accounted_alloc_count_le (M : Int) (ps : List Process) (s : SimState)
    (h : Accounted M ps s) : s.alloc_count ≤ admissible M (ps.take s.process_idx) := by
  obtain ⟨hle, hacc⟩ := h
  have hsplit := rejected_add_admissible M (ps.take s.process_idx)
  rw [List.length_take, Nat.min_eq_left hle] at hsplit
  omega

/-- C20 (allocation accounting): in every state at the head of the loop, hence at the end
of every tick, `alloc_count` plus the queue length plus the number of consumed processes
larger than the memory is `process_idx`; `alloc_count` never exceeds the number of
consumed processes that fit the memory; and in a terminal state `alloc_count` is the
number of input processes no larger than the memory. -/
theorem allocation_accounting (M : Int) (ps : List Process) (s : SimState)
    (h : Reached M ps s) :
    s.alloc_count + s.waiting.length + rejected M (ps.take s.process_idx) = s.process_idx ∧
    s.alloc_count ≤ admissible M (ps.take s.process_idx) ∧
    (Terminal ps s → s.alloc_count = admissible M ps) := by
  have hacc := accounted_reached M ps s h
  refine ⟨hacc.2, accounted_alloc_count_le M ps s hacc, ?_⟩
  rintro ⟨hidx, _, hq⟩
  have hsplit := rejected_add_admissible M ps
  have hid := hacc.2
  rw [hidx, List.take_length, hq] at hid
  simp only [List.length_nil] at hid
  omega

/-- Witness for C20: the state after the first tick of a run with memory 100 and three
processes, of which the second is larger than the memory. -/
theorem allocation_accounting_witness :
    (tick 100 [⟨0, 30, 5, 1⟩, ⟨0, 200, 2, 2⟩, ⟨3, 90, 1, 3⟩] (initial_state 100)).alloc_count +
      (tick 100 [⟨0, 30, 5, 1⟩, ⟨0, 200, 2, 2⟩, ⟨3, 90, 1, 3⟩] (initial_state 100)).waiting.length +
      rejected 100 (List.take
        (tick 100 [⟨0, 30, 5, 1⟩, ⟨0, 200, 2, 2⟩, ⟨3, 90, 1, 3⟩] (initial_state 100)).process_idx
        [⟨0, 30, 5, 1⟩, ⟨0, 200, 2, 2⟩, ⟨3, 90, 1, 3⟩]) =
      (tick 100 [⟨0, 30, 5, 1⟩, ⟨0, 200, 2, 2⟩, ⟨3, 90, 1, 3⟩] (initial_state 100)).process_idx ∧
    (tick 100 [⟨0, 30, 5, 1⟩, ⟨0, 200, 2, 2⟩, ⟨3, 90, 1, 3⟩] (initial_state 100)).alloc_count ≤
      admissible 100 (List.take
        (tick 100 [⟨0, 30, 5, 1⟩, ⟨0, 200, 2, 2⟩, ⟨3, 90, 1, 3⟩] (initial_state 100)).process_idx
        [⟨0, 30, 5, 1⟩, ⟨0, 200, 2, 2⟩, ⟨3, 90, 1, 3⟩]) ∧
    (Terminal [⟨0, 30, 5, 1⟩, ⟨0, 200, 2, 2⟩, ⟨3, 90, 1, 3⟩]
        (tick 100 [⟨0, 30, 5, 1⟩, ⟨0, 200, 2, 2⟩, ⟨3, 90, 1, 3⟩] (initial_state 100)) →
      (tick 100 [⟨0, 30, 5, 1⟩, ⟨0, 200, 2, 2⟩, ⟨3, 90, 1, 3⟩] (initial_state 100)).alloc_count =
        admissible 100 [⟨0, 30, 5, 1⟩, ⟨0, 200, 2, 2⟩, ⟨3, 90, 1, 3⟩]) :=
  allocation_accounting 100 [⟨0, 30, 5, 1⟩, ⟨0, 200, 2, 2⟩, ⟨3, 90, 1, 3⟩] _
    (Reached.next _ Reached.start (by decide))

/-! ## Who can be in the queue -/

theorem retry_waiting_mem (t M : Int) (q : List WaitingProcess) (mem : List MemoryBlock)
    (run : List RunningProcess) (ac : Nat) :
    ∀ w ∈ (retry_waiting t M q mem run ac).waiting, ∃ v ∈ q, w.process = v.process := by
  induction q generalizing mem run ac with
  | nil => intro w hw; cases hw
  | cons v rest ih =>
    intro w hw
    cases hflag : (placement_rounds v.process t M 3 mem run).allocated with
    | true =>
      simp only [retry_waiting, hflag, if_true] at hw
      obtain ⟨u, hu, hwu⟩ := ih _ _ _ w hw
      exact ⟨u, List.mem_cons_of_mem _ hu, hwu⟩
    | false =>
      simp only [retry_waiting, hflag, Bool.false_eq_true, if_false, List.mem_cons] at hw
      rcases hw with rfl | hw
      · exact ⟨v, List.mem_cons_self _ _, rfl⟩
      · obtain ⟨u, hu, hwu⟩ := ih _ _ _ w hw
        exact ⟨u, List.mem_cons_of_mem _ hu, hwu⟩

theorem admit_one_waiting (M : Int) (p : Process) (s : SimState) :
    ∀ w ∈ (admit_one M p s).waiting, w ∈ s.waiting ∨ (w.process = p ∧ p.size ≤ M) := by
  intro w hw
  unfold admit_one at hw
  by_cases hp : p.size > M
  · simp only [if_pos hp] at hw
    exact Or.inl hw
  · simp only [if_neg hp] at hw
    cases halloc : (allocate_first_fit s.memory p.size).1 with
    | some a =>
      simp only [halloc] at hw
      exact Or.inl hw
    | none =>
      simp only [halloc, add_to_waiting, List.mem_append, List.mem_singleton] at hw
      rcases hw with hw | rfl
      · exact Or.inl hw
      · exact Or.inr ⟨rfl, not_lt.mp hp⟩

theorem admit_arrivals_waiting (M : Int) (rest : List Process) (s : SimState) :
    ∀ w ∈ (admit_arrivals M rest s).waiting,
      w ∈ s.waiting ∨ (w.process ∈ rest ∧ w.process.size ≤ M) := by
  induction rest generalizing s with
  | nil => intro w hw; exact Or.inl hw
  | cons p rest ih =>
    intro w hw
    by_cases harr : p.arrival_time ≤ s.current_time
    · simp only [admit_arrivals, if_pos harr] at hw
      rcases ih _ w hw with h | ⟨h1, h2⟩
      · rcases admit_one_waiting M p s w h with h | ⟨h1, h2⟩
        · exact Or.inl h
        · exact Or.inr ⟨by rw [h1]; exact List.mem_cons_self _ _, by rw [h1]; exact h2⟩
      · exact Or.inr ⟨List.mem_cons_of_mem _ h1, h2⟩
    · simp only [admit_arrivals, if_neg harr] at hw
      exact Or.inl hw

theorem waiting_arrivals_step (M : Int) (ps : List Process) (s : SimState)
    (h : ∀ w ∈ s.waiting, w.process ∈ ps ∧ w.process.size ≤ M) :
    ∀ w ∈ (arrivals_step M ps (expire s)).waiting, w.process ∈ ps ∧ w.process.size ≤ M := by
  intro w hw
  rcases admit_arrivals_waiting M _ (expire s) w hw with hw | ⟨h1, h2⟩
  · exact h w hw
  · exact ⟨List.mem_of_mem_drop h1, h2⟩

theorem waiting_tick (M : Int) (ps : List Process) (s : SimState)
    (h : ∀ w ∈ s.waiting, w.process ∈ ps ∧ w.process.size ≤ M) :
    ∀ w ∈ (tick M ps s).waiting, w.process ∈ ps ∧ w.process.size ≤ M := by
  intro w hw
  obtain ⟨v, hv, hwv⟩ := retry_waiting_mem _ _ _ _ _ _ w hw
  rw [hwv]
  exact waiting_arrivals_step M ps s h v hv

theorem waiting_reached (M : Int) (ps : List Process) (s : SimState) (h : Reached M ps s) :
    ∀ w ∈ s.waiting, w.process ∈ ps ∧ w.process.size ≤ M := by
  induction h with
  | start => intro w hw; cases hw
  | next s _ _ ih => exact waiting_tick M ps s ih

/-- C13 (structural rejection): in the arrival step a process larger than the memory is
consumed (`process_idx` grows by one) and nothing else changes: block list, running list,
queue and `alloc_count` are as before.  So in every state the driver reaches, at the head
of the loop and between the steps of a tick, no queue entry is larger than the memory, and
`alloc_count` is at most the number of consumed processes that fit the memory. -/
theorem structural_rejection (M : Int) (ps : List Process) :
    (∀ (s : SimState) (p : Process), p.size > M →
      admit_one M p s =
        ⟨s.memory, s.active, s.waiting, s.current_time, s.alloc_count, s.process_idx + 1⟩) ∧
    (∀ (s : SimState) (p : Process) (rest : List Process),
      p.size > M → p.arrival_time ≤ s.current_time →
      admit_arrivals M (p :: rest) s = admit_arrivals M rest
        ⟨s.memory, s.active, s.waiting, s.current_time, s.alloc_count, s.process_idx + 1⟩) ∧
    (∀ s : SimState, Reached M ps s →
      (∀ w ∈ s.waiting, w.process.size ≤ M) ∧
      (∀ w ∈ (expire s).waiting, w.process.size ≤ M) ∧
      (∀ w ∈ (arrivals_step M ps (expire s)).waiting, w.process.size ≤ M) ∧
      (∀ w ∈ (retry M (arrivals_step M ps (expire s))).waiting, w.process.size ≤ M) ∧
      s.alloc_count ≤ admissible M (ps.take s.process_idx)) := by
  refine ⟨fun s p hp => admit_one_rejects M p s hp, ?_, ?_⟩
  · intro s p rest hp harr
    simp only [admit_arrivals, if_pos harr, admit_one_rejects M p s hp]
  · intro s hs
    have hq := waiting_reached M ps s hs
    refine ⟨fun w hw => (hq w hw).2, fun w hw => (hq w hw).2,
      fun w hw => (waiting_arrivals_step M ps s hq w hw).2,
      fun w hw => (waiting_tick M ps s hq w hw).2,
      accounted_alloc_count_le M ps s (accounted_reached M ps s hs)⟩

/-! ## The placement rounds of one queue entry -/

theorem balanced_of_coverage (M : Int) (bs : List MemoryBlock) (h : Coverage M bs) :
    Balanced M bs :=
  ⟨h.2.2.2, fun b hb _ => h.2.1 b hb⟩

theorem allocate_first_fit_isSome_of_fit (bs : List MemoryBlock) (size : Int)
    (h : ∃ b ∈ bs, Fits size b) : (allocate_first_fit bs size).1 ≠ none := by
  obtain ⟨pre, b, post, hsplit, hpre, hb⟩ := exists_first_fit bs size h
  rw [hsplit, allocate_first_fit_at_first_fit pre post b size hpre hb]
  simp

theorem allocate_first_fit_no_fit_of_none (bs : List MemoryBlock) (size : Int)
    (h : (allocate_first_fit bs size).1 = none) : ∀ b ∈ bs, ¬ Fits size b :=
  fun b hb hfit => allocate_first_fit_isSome_of_fit bs size ⟨b, hb, hfit⟩ h

theorem allocate_first_fit_unchanged_of_none (bs : List MemoryBlock) (size : Int)
    (h : (allocate_first_fit bs size).1 = none) : (allocate_first_fit bs size).2 = bs := by
  rw [allocate_first_fit_none_of_no_fit bs size (allocate_first_fit_no_fit_of_none bs size h)]

theorem balanced_allocate (M : Int) (bs : List MemoryBlock) (size : Int)
    (h : Balanced M bs) : Balanced M (allocate_first_fit bs size).2 := by
  obtain ⟨hsum, hfree⟩ := h
  induction bs generalizing M with
  | nil => exact ⟨hsum, hfree⟩
  | cons b rest ih =>
    have hrest := ih ((rest.map MemoryBlock.size).sum) rfl
      (fun x hx => hfree x (List.mem_cons_of_mem _ hx))
    simp only [List.map_cons, List.sum_cons] at hsum
    by_cases hfit : b.status = FREE ∧ b.size ≥ size
    · by_cases hgt : b.size > size
      · simp only [allocate_first_fit, if_pos hfit, if_pos hgt]
        refine ⟨?_, ?_⟩
        · simp only [List.map_cons, List.sum_cons]
          omega
        · intro x hx hxfree
          simp only [List.mem_cons] at hx
          rcases hx with rfl | rfl | hx
          · cases hxfree
          · show 0 < b.size - size
            omega
          · exact hfree x (List.mem_cons_of_mem _ hx) hxfree
      · simp only [allocate_first_fit, if_pos hfit, if_neg hgt]
        refine ⟨?_, ?_⟩
        · simp only [List.map_cons, List.sum_cons]
          omega
        · intro x hx hxfree
          simp only [List.mem_cons] at hx
          rcases hx with rfl | hx
          · cases hxfree
          · exact hfree x (List.mem_cons_of_mem _ hx) hxfree
    · simp only [allocate_first_fit, if_neg hfit]
      refine ⟨?_, ?_⟩
      · simp only [List.map_cons, List.sum_cons, hrest.1]
        omega
      · intro x hx hxfree
        simp only [List.mem_cons] at hx
        rcases hx with rfl | hx
        · exact hfree x (List.mem_cons_self _ _) hxfree
        · exact hrest.2 x hx hxfree

theorem calculate_total_free_nonneg_of_free_pos (bs : List MemoryBlock)
    (hfree : ∀ b ∈ bs, b.status = FREE → 0 < b.size) : 0 ≤ calculate_total_free bs := by
  induction bs with
  | nil => exact le_refl _
  | cons b rest ih =>
    have hrest := ih (fun x hx => hfree x (List.mem_cons_of_mem _ hx))
    by_cases hst : b.status = FREE
    · have := hfree b (List.mem_cons_self _ _) hst
      simp only [calculate_total_free, if_pos hst]; omega
    · simp only [calculate_total_free, if_neg hst]; exact hrest

theorem calculate_total_free_append (l₁ l₂ : List MemoryBlock) :
    calculate_total_free (l₁ ++ l₂) = calculate_total_free l₁ + calculate_total_free l₂ := by
  induction l₁ with
  | nil => simp [calculate_total_free]
  | cons b rest ih =>
    by_cases hst : b.status = FREE
    · rw [List.cons_append]
      simp only [calculate_total_free, if_pos hst, ih]; ring
    · rw [List.cons_append]
      simp only [calculate_total_free, if_neg hst, ih]

theorem calculate_total_free_pack_from (c : Int) (allocs : List MemoryBlock) :
    calculate_total_free (pack_from c allocs) = 0 := by
  induction allocs generalizing c with
  | nil => rfl
  | cons b rest ih =>
    simp only [pack_from, calculate_total_free, reduceCtorEq, if_false, ih]

theorem pack_from_sum (c : Int) (allocs : List MemoryBlock) :
    ((pack_from c allocs).map MemoryBlock.size).sum = (allocs.map MemoryBlock.size).sum := by
  rw [pack_from_sizes]

theorem pack_from_all_allocated (c : Int) (allocs : List MemoryBlock) :
    ∀ x ∈ pack_from c allocs, x.status = ALLOCATED := by
  induction allocs generalizing c with
  | nil => intro x hx; cases hx
  | cons b rest ih =>
    intro x hx
    simp only [pack_from, List.mem_cons] at hx
    rcases hx with rfl | hx
    · rfl
    · exact ih _ x hx

/-- The block list `compact_memory` returns, in terms of the packed Allocated blocks. -/
theorem compact_memory_blocks (bs : List MemoryBlock) (M : Int) (rs : List RunningProcess) :
    (compact_memory bs M rs).1 =
      if total_allocated bs < M then
        pack_from 0 (allocated bs) ++ [⟨total_allocated bs, M - total_allocated bs, FREE⟩]
      else pack_from 0 (allocated bs) := by
  rw [compact_memory_unfold, rebuild_layout_end_total, rebuild_layout_blocks,
    collect_allocated_eq_filter]
  by_cases hlt : total_allocated bs < M
  · simp only [if_pos hlt]; rfl
  · simp only [if_neg hlt]; rfl

theorem balanced_compact_memory (M : Int) (bs : List MemoryBlock) (rs : List RunningProcess)
    (h : Balanced M bs) : Balanced M (compact_memory bs M rs).1 := by
  obtain ⟨hsum, hfree⟩ := h
  have hsplit := total_allocated_add_free bs
  have hnonneg := calculate_total_free_nonneg_of_free_pos bs hfree
  have hpacked : ((pack_from 0 (allocated bs)).map MemoryBlock.size).sum =
      total_allocated bs := pack_from_sum 0 (allocated bs)
  rw [compact_memory_blocks]
  by_cases hlt : total_allocated bs < M
  · simp only [if_pos hlt]
    refine ⟨?_, ?_⟩
    · simp only [List.map_append, List.sum_append, hpacked, List.map_cons, List.map_nil,
        List.sum_cons, List.sum_nil]
      ring
    · intro x hx hxfree
      simp only [List.mem_append, List.mem_singleton] at hx
      rcases hx with hx | rfl
      · rw [pack_from_all_allocated _ _ x hx] at hxfree
        cases hxfree
      · show 0 < M - total_allocated bs
        omega
  · simp only [if_neg hlt]
    refine ⟨?_, ?_⟩
    · rw [hpacked]; omega
    · intro x hx hxfree
      rw [pack_from_all_allocated _ _ x hx] at hxfree
      cases hxfree

theorem balanced_placement_rounds (p : Process) (t M : Int) (rounds : Nat)
    (mem : List MemoryBlock) (run : List RunningProcess) (h : Balanced M mem) :
    Balanced M (placement_rounds p t M rounds mem run).memory := by
  induction rounds generalizing mem run with
  | zero => exact h
  | succ n ih =>
    by_cases hfree : calculate_total_free mem < p.size
    · simp only [placement_rounds, if_pos hfree]
      exact h
    · cases halloc : (allocate_first_fit mem p.size).1 with
      | some a =>
        simp only [placement_rounds, if_neg hfree, halloc]
        exact balanced_allocate M mem p.size h
      | none =>
        have hge : calculate_total_free mem ≥ p.size := not_lt.mp hfree
        simp only [placement_rounds, if_neg hfree, halloc, if_pos hge]
        exact ih _ _ (balanced_compact_memory M _ _ (balanced_allocate M mem p.size h))

theorem balanced_retry_waiting (t M : Int) (q : List WaitingProcess) (mem : List MemoryBlock)
    (run : List RunningProcess) (ac : Nat) (h : Balanced M mem) :
    Balanced M (retry_waiting t M q mem run ac).memory := by
  induction q generalizing mem run ac with
  | nil => exact h
  | cons w rest ih =>
    have hstep := balanced_placement_rounds w.process t M 3 mem run h
    cases hflag : (placement_rounds w.process t M 3 mem run).allocated with
    | true =>
      simp only [retry_waiting, hflag, if_true]
      exact ih _ _ _ hstep
    | false =>
      simp only [retry_waiting, hflag, Bool.false_eq_true, if_false]
      exact ih _ _ _ hstep

/-- After a compaction that follows a failed first-fit with enough total free memory, the
list ends in one Free block holding all the free memory, and first-fit succeeds. -/
theorem allocate_after_compaction (M : Int) (mem : List MemoryBlock)
    (run : List RunningProcess) (size : Int) (h : Balanced M mem) (hsize : 0 < size)
    (hfree : size ≤ calculate_total_free mem) :
    calculate_total_free (compact_memory mem M run).1 = calculate_total_free mem ∧
    (allocate_first_fit (compact_memory mem M run).1 size).1 ≠ none := by
  have hsplit := total_allocated_add_free mem
  have hlt : total_allocated mem < M := by have := h.1; omega
  have hsz : M - total_allocated mem = calculate_total_free mem := by have := h.1; omega
  rw [compact_memory_blocks, if_pos hlt]
  refine ⟨?_, ?_⟩
  · rw [calculate_total_free_append, calculate_total_free_pack_from]
    simp only [calculate_total_free, if_true, hsz]
    ring
  · apply allocate_first_fit_isSome_of_fit
    refine ⟨⟨total_allocated mem, M - total_allocated mem, FREE⟩, by simp, rfl, ?_⟩
    show size ≤ M - total_allocated mem
    omega

theorem placement_rounds_insufficient (p : Process) (t M : Int) (n : Nat)
    (mem : List MemoryBlock) (run : List RunningProcess)
    (hfree : calculate_total_free mem < p.size) :
    placement_rounds p t M (n + 1) mem run = ⟨false, mem, run, 0⟩ := by
  simp only [placement_rounds, if_pos hfree]

theorem placement_rounds_direct (p : Process) (t M : Int) (n : Nat)
    (mem : List MemoryBlock) (run : List RunningProcess) (a : Int)
    (hfree : p.size ≤ calculate_total_free mem)
    (halloc : (allocate_first_fit mem p.size).1 = some a) :
    placement_rounds p t M (n + 1) mem run =
      ⟨true, (allocate_first_fit mem p.size).2,
        add_running_process run a p.size (t + p.burst_time), 0⟩ := by
  have hnot : ¬ calculate_total_free mem < p.size := not_lt.mpr hfree
  simp only [placement_rounds, if_neg hnot, halloc]

theorem placement_rounds_fragmented (p : Process) (t M : Int) (n : Nat)
    (mem : List MemoryBlock) (run : List RunningProcess) (h : Balanced M mem)
    (hsize : 0 < p.size) (hfree : p.size ≤ calculate_total_free mem)
    (halloc : (allocate_first_fit mem p.size).1 = none) :
    ∃ a, (allocate_first_fit (compact_memory mem M run).1 p.size).1 = some a ∧
      placement_rounds p t M (n + 2) mem run =
        ⟨true, (allocate_first_fit (compact_memory mem M run).1 p.size).2,
          add_running_process (compact_memory mem M run).2 a p.size (t + p.burst_time), 1⟩ := by
  have hnot : ¬ calculate_total_free mem < p.size := not_lt.mpr hfree
  have hge : calculate_total_free mem ≥ p.size := hfree
  have hsame := allocate_first_fit_unchanged_of_none mem p.size halloc
  obtain ⟨hfree', hsome⟩ := allocate_after_compaction M mem run p.size h hsize hfree
  obtain ⟨a, ha⟩ := Option.ne_none_iff_exists'.mp hsome
  refine ⟨a, ha, ?_⟩
  have hstep : placement_rounds p t M (n + 2) mem run =
      ⟨(placement_rounds p t M (n + 1) (compact_memory mem M run).1
          (compact_memory mem M run).2).allocated,
        (placement_rounds p t M (n + 1) (compact_memory mem M run).1
          (compact_memory mem M run).2).memory,
        (placement_rounds p t M (n + 1) (compact_memory mem M run).1
          (compact_memory mem M run).2).running,
        (placement_rounds p t M (n + 1) (compact_memory mem M run).1
          (compact_memory mem M run).2).compactions + 1⟩ := by
    conv_lhs => rw [placement_rounds]
    simp only [if_neg hnot, halloc, if_pos hge, hsame]
  rw [hstep, placement_rounds_direct p t M n _ _ a (by rw [hfree']; exact hfree) ha]

theorem placement_rounds_allocated_iff (p : Process) (t M : Int) (n : Nat)
    (mem : List MemoryBlock) (run : List RunningProcess) (h : Balanced M mem)
    (hsize : 0 < p.size) :
    (placement_rounds p t M (n + 2) mem run).allocated = true ↔
      p.size ≤ calculate_total_free mem := by
  by_cases hfree : p.size ≤ calculate_total_free mem
  · cases halloc : (allocate_first_fit mem p.size).1 with
    | some a =>
      rw [placement_rounds_direct p t M (n + 1) mem run a hfree halloc]
      exact ⟨fun _ => hfree, fun _ => rfl⟩
    | none =>
      obtain ⟨a, _, hres⟩ := placement_rounds_fragmented p t M n mem run h hsize hfree halloc
      rw [hres]
      exact ⟨fun _ => hfree, fun _ => rfl⟩
  · rw [placement_rounds_insufficient p t M (n + 1) mem run (not_le.mp hfree)]
    exact ⟨fun hc => (by cases hc), fun hc => absurd hc hfree⟩

theorem retry_waiting_cons_placed (t M : Int) (w : WaitingProcess)
    (rest : List WaitingProcess) (mem : List MemoryBlock) (run : List RunningProcess)
    (ac : Nat) (h : (placement_rounds w.process t M 3 mem run).allocated = true) :
    retry_waiting t M (w :: rest) mem run ac =
      retry_waiting t M rest (placement_rounds w.process t M 3 mem run).memory
        (placement_rounds w.process t M 3 mem run).running (ac + 1) := by
  simp only [retry_waiting, h, if_true]

theorem retry_waiting_cons_unplaced (t M : Int) (w : WaitingProcess)
    (rest : List WaitingProcess) (mem : List MemoryBlock) (run : List RunningProcess)
    (ac : Nat) (h : (placement_rounds w.process t M 3 mem run).allocated = false) :
    retry_waiting t M (w :: rest) mem run ac =
      ⟨⟨w.process, w.attempts + 1⟩ ::
          (retry_waiting t M rest (placement_rounds w.process t M 3 mem run).memory
            (placement_rounds w.process t M 3 mem run).running ac).waiting,
        (retry_waiting t M rest (placement_rounds w.process t M 3 mem run).memory
          (placement_rounds w.process t M 3 mem run).running ac).memory,
        (retry_waiting t M rest (placement_rounds w.process t M 3 mem run).memory
          (placement_rounds w.process t M 3 mem run).running ac).running,
        (retry_waiting t M rest (placement_rounds w.process t M 3 mem run).memory
          (placement_rounds w.process t M 3 mem run).running ac).alloc_count⟩ := by
  simp only [retry_waiting, h, Bool.false_eq_true, if_false]

theorem retry_placed_cons (t M : Int) (w : WaitingProcess) (rest : List WaitingProcess)
    (mem : List MemoryBlock) (run : List RunningProcess) :
    retry_placed t M (w :: rest) mem run =
      (placement_rounds w.process t M 3 mem run).allocated ::
        retry_placed t M rest (placement_rounds w.process t M 3 mem run).memory
          (placement_rounds w.process t M 3 mem run).running := rfl

theorem retry_waiting_append (t M : Int) (pre rest : List WaitingProcess)
    (mem : List MemoryBlock) (run : List RunningProcess) (ac : Nat) :
    retry_waiting t M (pre ++ rest) mem run ac =
      ⟨(retry_waiting t M pre mem run ac).waiting ++
          (retry_waiting t M rest (retry_waiting t M pre mem run ac).memory
            (retry_waiting t M pre mem run ac).running
            (retry_waiting t M pre mem run ac).alloc_count).waiting,
        (retry_waiting t M rest (retry_waiting t M pre mem run ac).memory
          (retry_waiting t M pre mem run ac).running
          (retry_waiting t M pre mem run ac).alloc_count).memory,
        (retry_waiting t M rest (retry_waiting t M pre mem run ac).memory
          (retry_waiting t M pre mem run ac).running
          (retry_waiting t M pre mem run ac).alloc_count).running,
        (retry_waiting t M rest (retry_waiting t M pre mem run ac).memory
          (retry_waiting t M pre mem run ac).running
          (retry_waiting t M pre mem run ac).alloc_count).alloc_count⟩ := by
  induction pre generalizing mem run ac with
  | nil => rfl
  | cons w pre ih =>
    rw [List.cons_append]
    cases hflag : (placement_rounds w.process t M 3 mem run).allocated with
    | true =>
      rw [retry_waiting_cons_placed t M w _ mem run ac hflag,
        retry_waiting_cons_placed t M w _ mem run ac hflag]
      exact ih _ _ _
    | false =>
      rw [retry_waiting_cons_unplaced t M w _ mem run ac hflag,
        retry_waiting_cons_unplaced t M w _ mem run ac hflag, ih]
      rfl

theorem retry_placed_append (t M : Int) (pre rest : List WaitingProcess)
    (mem : List MemoryBlock) (run : List RunningProcess) (ac : Nat) :
    retry_placed t M (pre ++ rest) mem run =
      retry_placed t M pre mem run ++
        retry_placed t M rest (retry_waiting t M pre mem run ac).memory
          (retry_waiting t M pre mem run ac).running := by
  induction pre generalizing mem run ac with
  | nil => rfl
  | cons w pre ih =>
    rw [List.cons_append, retry_placed_cons, retry_placed_cons, List.cons_append]
    cases hflag : (placement_rounds w.process t M 3 mem run).allocated with
    | true =>
      rw [retry_waiting_cons_placed t M w _ mem run ac hflag, ih _ _ (ac + 1)]
    | false =>
      rw [retry_waiting_cons_unplaced t M w _ mem run ac hflag, ih _ _ ac]

/-- C15 (fragmentation recovered within the tick): start `retry_waiting` on a block list
that satisfies the coverage invariant, and let `o` be the state when the loop reaches the
entry `w` of positive size `S` (after the entries `pre` before it) and `r` the outcome of
its placement rounds.  Then `w` is placed iff the total free memory at that moment is at
least `S`; if first-fit fails although the total free memory suffices, exactly one
compaction is done and first-fit succeeds on the compacted list; without that there is no
compaction, so the three rounds are never used up; and `w` stays in the queue (with
`attempts` one more, between the entries left from `pre` and from `post`) exactly when it
was not placed, in which case the total free memory was below `S`. -/
theorem fragmentation_recovered_within_tick (M t : Int) (pre post : List WaitingProcess)
    (w : WaitingProcess) (mem : List MemoryBlock) (run : List RunningProcess) (ac : Nat)
    (hcov : Coverage M mem) (hS : 0 < w.process.size)
    (o : RetryOutcome) (ho : o = retry_waiting t M pre mem run ac)
    (r : Placement) (hr : r = placement_rounds w.process t M 3 o.memory o.running) :
    (retry_placed t M (pre ++ w :: post) mem run)[pre.length]? = some r.allocated ∧
    (r.allocated = true ↔ w.process.size ≤ calculate_total_free o.memory) ∧
    ((allocate_first_fit o.memory w.process.size).1 = none →
      w.process.size ≤ calculate_total_free o.memory →
      r.compactions = 1 ∧ r.allocated = true ∧
      (allocate_first_fit (compact_memory o.memory M o.running).1 w.process.size).1 ≠ none) ∧
    ((allocate_first_fit o.memory w.process.size).1 ≠ none → r.compactions = 0) ∧
    r.compactions ≤ 1 ∧
    (r.allocated = false →
      calculate_total_free o.memory < w.process.size ∧ r.memory = o.memory ∧
      r.running = o.running) ∧
    (retry_waiting t M (pre ++ w :: post) mem run ac).waiting =
      o.waiting ++ (if r.allocated then [] else [⟨w.process, w.attempts + 1⟩]) ++
        (retry_waiting t M post r.memory r.running
          (o.alloc_count + (if r.allocated then 1 else 0))).waiting := by
  have hbal : Balanced M o.memory := by
    rw [ho]
    exact balanced_retry_waiting t M pre mem run ac (balanced_of_coverage M mem hcov)
  have hiff : r.allocated = true ↔ w.process.size ≤ calculate_total_free o.memory := by
    rw [hr]
    exact placement_rounds_allocated_iff w.process t M 1 o.memory o.running hbal hS
  have hfrag : (allocate_first_fit o.memory w.process.size).1 = none →
      w.process.size ≤ calculate_total_free o.memory →
      r.compactions = 1 ∧ r.allocated = true ∧
      (allocate_first_fit (compact_memory o.memory M o.running).1 w.process.size).1 ≠ none := by
    intro hnone hfree
    obtain ⟨a, ha, hres⟩ :=
      placement_rounds_fragmented w.process t M 1 o.memory o.running hbal hS hfree hnone
    rw [hr, hres]
    refine ⟨rfl, rfl, ?_⟩
    rw [ha]
    simp
  have hdirect : (allocate_first_fit o.memory w.process.size).1 ≠ none → r.compactions = 0 := by
    intro hsome
    obtain ⟨a, ha⟩ := Option.ne_none_iff_exists'.mp hsome
    by_cases hfree : w.process.size ≤ calculate_total_free o.memory
    · rw [hr, placement_rounds_direct w.process t M 2 o.memory o.running a hfree ha]
    · rw [hr, placement_rounds_insufficient w.process t M 2 o.memory o.running
        (not_le.mp hfree)]
  have hcap : r.compactions ≤ 1 := by
    cases hnone : (allocate_first_fit o.memory w.process.size).1 with
    | some a =>
      have := hdirect (by rw [hnone]; simp)
      omega
    | none =>
      by_cases hfree : w.process.size ≤ calculate_total_free o.memory
      · have := (hfrag hnone hfree).1
        omega
      · rw [hr, placement_rounds_insufficient w.process t M 2 o.memory o.running
          (not_le.mp hfree)]
        exact Nat.zero_le _
  have hleft : r.allocated = false →
      calculate_total_free o.memory < w.process.size ∧ r.memory = o.memory ∧
      r.running = o.running := by
    intro hfalse
    have hlt : calculate_total_free o.memory < w.process.size := by
      by_contra hge
      have := hiff.mpr (not_lt.mp hge)
      rw [hfalse] at this
      cases this
    rw [hr, placement_rounds_insufficient w.process t M 2 o.memory o.running hlt]
    exact ⟨hlt, rfl, rfl⟩
  refine ⟨?_, hiff, hfrag, hdirect, hcap, hleft, ?_⟩
  · rw [retry_placed_append t M pre (w :: post) mem run ac,
      List.getElem?_append_right (by rw [retry_placed_length]),
      retry_placed_length, Nat.sub_self, retry_placed_cons, ← ho, ← hr]
    simp
  · rw [retry_waiting_append, ← ho]
    cases hflag : r.allocated with
    | true =>
      rw [hr] at hflag
      rw [retry_waiting_cons_placed t M w post o.memory o.running o.alloc_count hflag, ← hr]
      simp
    | false =>
      rw [hr] at hflag
      rw [retry_waiting_cons_unplaced t M w post o.memory o.running o.alloc_count hflag, ← hr]
      simp

/-- Witness for C15: memory 50 with holes of 20 and 10; the queue holds a process of size
5 and then one of size 25, which needs the compaction. -/
theorem fragmentation_recovered_witness :
    (retry_placed 7 50 ([⟨⟨0, 5, 2, 1⟩, 0⟩] ++ ⟨⟨1, 25, 4, 3⟩, 0⟩ :: [])
        [⟨0, 10, ALLOCATED⟩, ⟨10, 20, FREE⟩, ⟨30, 10, ALLOCATED⟩, ⟨40, 10, FREE⟩]
        [⟨30, 10, 9⟩, ⟨0, 10, 8⟩])[([⟨⟨0, 5, 2, 1⟩, 0⟩] : List WaitingProcess).length]? =
      some true ∧
    (placement_rounds ⟨1, 25, 4, 3⟩ 7 50 3
        [⟨0, 10, ALLOCATED⟩, ⟨10, 5, ALLOCATED⟩, ⟨15, 15, FREE⟩, ⟨30, 10, ALLOCATED⟩,
          ⟨40, 10, FREE⟩]
        [⟨10, 5, 9⟩, ⟨30, 10, 9⟩, ⟨0, 10, 8⟩]).compactions = 1 := by
  have h := fragmentation_recovered_within_tick 50 7 [⟨⟨0, 5, 2, 1⟩, 0⟩] []
    ⟨⟨1, 25, 4, 3⟩, 0⟩
    [⟨0, 10, ALLOCATED⟩, ⟨10, 20, FREE⟩, ⟨30, 10, ALLOCATED⟩, ⟨40, 10, FREE⟩]
    [⟨30, 10, 9⟩, ⟨0, 10, 8⟩] 0 (by simp [Coverage]) (by decide)
    ⟨[], [⟨0, 10, ALLOCATED⟩, ⟨10, 5, ALLOCATED⟩, ⟨15, 15, FREE⟩, ⟨30, 10, ALLOCATED⟩,
        ⟨40, 10, FREE⟩], [⟨10, 5, 9⟩, ⟨30, 10, 9⟩, ⟨0, 10, 8⟩], 1⟩ (by decide)
    ⟨true, [⟨0, 10, ALLOCATED⟩, ⟨10, 5, ALLOCATED⟩, ⟨15, 10, ALLOCATED⟩,
        ⟨25, 25, ALLOCATED⟩], [⟨25, 25, 11⟩, ⟨10, 5, 9⟩, ⟨15, 10, 9⟩, ⟨0, 10, 8⟩], 1⟩
    (by decide)
  exact ⟨h.1, (h.2.2.1 (by decide) (by decide)).1 ▸ (by decide)⟩

/-! ## The Allocated blocks under the allocator operations -/

theorem allocated_cons_allocated (b : MemoryBlock) (rest : List MemoryBlock)
    (h : b.status = ALLOCATED) : allocated (b :: rest) = b :: allocated rest := by
  unfold allocated
  simp only [List.filter_cons, h, decide_True, if_true]

theorem allocated_cons_free (b : MemoryBlock) (rest : List MemoryBlock)
    (h : b.status = FREE) : allocated (b :: rest) = allocated rest := by
  unfold allocated
  simp only [List.filter_cons, h, reduceCtorEq, decide_False, Bool.false_eq_true, if_false]

theorem status_free_of_not_allocated (b : MemoryBlock) (h : ¬ b.status = ALLOCATED) :
    b.status = FREE := by
  cases hs : b.status with
  | FREE => rfl
  | ALLOCATED => exact absurd hs h

theorem allocated_keys_allocate (bs : List MemoryBlock) (S a : Int)
    (h : (allocate_first_fit bs S).1 = some a) :
    ((allocated (allocate_first_fit bs S).2).map MemoryBlock.key).Perm
      ((a, S) :: (allocated bs).map MemoryBlock.key) := by
  induction bs with
  | nil => simp [allocate_first_fit] at h
  | cons b rest ih =>
    by_cases hfit : b.status = FREE ∧ b.size ≥ S
    · by_cases hgt : b.size > S
      · simp only [allocate_first_fit, if_pos hfit, if_pos hgt, Option.some.injEq] at h ⊢
        rw [allocated_cons_allocated _ _ rfl, allocated_cons_free _ _ rfl,
          allocated_cons_free b rest hfit.1, List.map_cons, ← h]
        exact List.Perm.refl _
      · simp only [allocate_first_fit, if_pos hfit, if_neg hgt, Option.some.injEq] at h ⊢
        have hsz : b.size = S := le_antisymm (not_lt.mp hgt) hfit.2
        rw [allocated_cons_allocated _ _ rfl, allocated_cons_free b rest hfit.1, List.map_cons,
          ← h]
        simp only [MemoryBlock.key, hsz]
        exact List.Perm.refl _
    · simp only [allocate_first_fit, if_neg hfit] at h ⊢
      have hrest := ih h
      by_cases hst : b.status = ALLOCATED
      · rw [allocated_cons_allocated _ _ hst, allocated_cons_allocated _ _ hst, List.map_cons,
          List.map_cons]
        exact (List.Perm.cons _ hrest).trans (List.Perm.swap _ _ _)
      · have hfree := status_free_of_not_allocated b hst
        rw [allocated_cons_free _ _ hfree, allocated_cons_free _ _ hfree]
        exact hrest

theorem corresponds_allocate (bs : List MemoryBlock) (rs : List RunningProcess)
    (S a finish : Int) (hcorr : Corresponds bs rs)
    (h : (allocate_first_fit bs S).1 = some a) :
    Corresponds (allocate_first_fit bs S).2 (add_running_process rs a S finish) := by
  unfold Corresponds at hcorr ⊢
  simp only [add_running_process, List.map_cons, RunningProcess.key]
  exact (List.Perm.cons _ hcorr).trans (allocated_keys_allocate bs S a h).symm

theorem allocated_merge_from (cur : MemoryBlock) (rest : List MemoryBlock) :
    allocated (merge_from cur rest) = allocated (cur :: rest) := by
  induction rest generalizing cur with
  | nil => rfl
  | cons n rest ih =>
    by_cases hboth : cur.status = FREE ∧ n.status = FREE
    · simp only [merge_from, if_pos hboth]
      rw [ih, allocated_cons_free ⟨cur.start, cur.size + n.size, cur.status⟩ rest hboth.1,
        allocated_cons_free cur _ hboth.1, allocated_cons_free n _ hboth.2]
    · simp only [merge_from, if_neg hboth]
      by_cases hst : cur.status = ALLOCATED
      · rw [allocated_cons_allocated _ _ hst, allocated_cons_allocated _ _ hst, ih]
      · have hfree := status_free_of_not_allocated cur hst
        rw [allocated_cons_free _ _ hfree, allocated_cons_free _ _ hfree, ih]

theorem allocated_merge_free_blocks (bs : List MemoryBlock) :
    allocated (merge_free_blocks bs) = allocated bs := by
  cases bs with
  | nil => rfl
  | cons b rest => exact allocated_merge_from b rest

theorem allocated_keys_deallocate (bs : List MemoryBlock) (k : Int × Int)
    (hnd : ((allocated bs).map MemoryBlock.start).Nodup)
    (hk : k ∈ (allocated bs).map MemoryBlock.key) :
    (k :: (allocated (deallocate bs k.1)).map MemoryBlock.key).Perm
      ((allocated bs).map MemoryBlock.key) := by
  have key : ∃ marked, mark_free bs k.1 = some marked ∧
      (k :: (allocated marked).map MemoryBlock.key).Perm
        ((allocated bs).map MemoryBlock.key) := by
    induction bs with
    | nil => simp [allocated] at hk
    | cons b rest ih =>
      by_cases hst : b.status = ALLOCATED
      · rw [allocated_cons_allocated _ _ hst, List.map_cons] at hk hnd
        rw [allocated_cons_allocated _ _ hst, List.map_cons]
        obtain ⟨hnotin, hnd'⟩ := List.nodup_cons.mp hnd
        by_cases hstart : b.start = k.1
        · have hkb : k = b.key := by
            rcases List.mem_cons.mp hk with h | h
            · exact h
            · exfalso
              apply hnotin
              obtain ⟨x, hx, hxk⟩ := List.mem_map.mp h
              refine List.mem_map.mpr ⟨x, hx, ?_⟩
              rw [hstart, ← hxk]
              rfl
          refine ⟨⟨b.start, b.size, FREE⟩ :: rest, ?_, ?_⟩
          · simp only [mark_free, if_pos (And.intro hstart hst)]
          · rw [allocated_cons_free _ _ rfl, hkb]
        · have hne : ¬ (b.start = k.1 ∧ b.status = ALLOCATED) := fun h => hstart h.1
          have hkb : b.key ≠ k := fun h => hstart (by rw [← h]; rfl)
          have hk' : k ∈ (allocated rest).map MemoryBlock.key := by
            rcases List.mem_cons.mp hk with h | h
            · exact absurd h.symm hkb
            · exact h
          obtain ⟨marked, hm, hkeys⟩ := ih hnd' hk'
          refine ⟨b :: marked, ?_, ?_⟩
          · simp only [mark_free, if_neg hne, hm, Option.map_some']
          · rw [allocated_cons_allocated _ _ hst, List.map_cons]
            exact (List.Perm.swap _ _ _).trans (List.Perm.cons _ hkeys)
      · have hfree := status_free_of_not_allocated b hst
        rw [allocated_cons_free _ _ hfree] at hk hnd
        rw [allocated_cons_free _ _ hfree]
        have hne : ¬ (b.start = k.1 ∧ b.status = ALLOCATED) := fun h => hst h.2
        obtain ⟨marked, hm, hkeys⟩ := ih hnd hk
        refine ⟨b :: marked, ?_, ?_⟩
        · simp only [mark_free, if_neg hne, hm, Option.map_some']
        · rw [allocated_cons_free _ _ hfree]
          exact hkeys
  obtain ⟨marked, hm, hkeys⟩ := key
  unfold deallocate
  rw [hm]
  simp only
  rw [allocated_merge_free_blocks]
  exact hkeys

theorem tiles_allocated_nodup (bs : List MemoryBlock) (lo hi : Int) (h : Tiles lo hi bs) :
    ((allocated bs).map MemoryBlock.start).Nodup := by
  have hasc := ascendingFrom_collect bs lo hi h
  rw [collect_allocated_eq_filter] at hasc
  exact ascendingFrom_nodup _ lo hasc

theorem corresponds_nil_iff (bs : List MemoryBlock) :
    Corresponds bs [] ↔ allocated bs = [] := by
  unfold Corresponds
  constructor
  · intro h
    have := h.length_eq
    simp only [List.map_nil, List.length_nil, List.length_map] at this
    exact List.length_eq_zero.mp this.symm
  · intro h
    rw [h]
    exact List.Perm.refl _

theorem corresponds_check_completed (M t : Int) (rs kept : List RunningProcess)
    (mem : List MemoryBlock) (htiles : Tiles 0 M mem) (hcorr : Corresponds mem (kept ++ rs)) :
    Tiles 0 M (check_completed_processes rs mem t).2 ∧
    Corresponds (check_completed_processes rs mem t).2
      (kept ++ (check_completed_processes rs mem t).1) := by
  induction rs generalizing kept mem with
  | nil => exact ⟨htiles, hcorr⟩
  | cons r rest ih =>
    by_cases hdone : r.finish_time ≤ t
    · simp only [check_completed_processes, if_pos hdone]
      apply ih kept (deallocate mem r.start) (tiles_deallocate mem 0 M r.start htiles)
      unfold Corresponds at hcorr ⊢
      have hmid : ((kept ++ r :: rest).map RunningProcess.key).Perm
          (r.key :: (kept ++ rest).map RunningProcess.key) := by
        simp only [List.map_append, List.map_cons]
        exact List.perm_middle
      have hall : (r.key :: (kept ++ rest).map RunningProcess.key).Perm
          ((allocated mem).map MemoryBlock.key) := hmid.symm.trans hcorr
      have hmem : r.key ∈ (allocated mem).map MemoryBlock.key :=
        hall.subset (List.mem_cons_self _ _)
      have hkeys := allocated_keys_deallocate mem r.key (tiles_allocated_nodup mem 0 M htiles) hmem
      have hk1 : r.key.1 = r.start := rfl
      rw [hk1] at hkeys
      exact List.Perm.cons_inv (hall.trans hkeys.symm)
    · simp only [check_completed_processes, if_neg hdone]
      have := ih (kept ++ [r]) mem htiles (by simpa using hcorr)
      simpa using this

theorem corresponds_compact_memory (M : Int) (bs : List MemoryBlock)
    (rs : List RunningProcess) (htiles : Tiles 0 M bs) (hcorr : Corresponds bs rs) :
    Corresponds (compact_memory bs M rs).1 (compact_memory bs M rs).2 := by
  have hfilter : collect_allocated bs = allocated bs := collect_allocated_eq_filter bs
  have hasc : AscendingFrom 0 (allocated bs) := by
    rw [← hfilter]
    exact ascendingFrom_collect bs 0 M htiles
  have hstarts : (rs.map RunningProcess.start).Perm ((allocated bs).map MemoryBlock.start) := by
    have := List.Perm.map Prod.fst hcorr
    simpa only [List.map_map] using this
  have hnodup : (rs.map RunningProcess.start).Nodup :=
    (List.Perm.nodup_iff hstarts).mpr (ascendingFrom_nodup _ 0 hasc)
  have hd : DistinctFrom 0 rs := by
    have hpair : rs.Pairwise (fun r s => r.start ≠ s.start) := List.pairwise_map.mp hnodup
    unfold DistinctFrom
    refine List.Pairwise.imp ?_ hpair
    intro r s hne _
    exact hne
  have hrun : (compact_memory bs M rs).2 =
      rs.map (fun r => ⟨new_start (allocated bs) 0 r.start, r.size, r.finish_time⟩) := by
    rw [compact_memory_running, hfilter]
    exact rebuild_layout_running (allocated bs) 0 0 rs (le_refl _) hasc hd
  have hblocks : (allocated (compact_memory bs M rs).1).map MemoryBlock.key =
      (allocated bs).map (fun b => (new_start (allocated bs) 0 b.start, b.size)) := by
    rw [allocated_compact_memory]
    exact pack_from_keys (allocated bs) 0 0 hasc
  unfold Corresponds
  rw [hblocks, hrun]
  have hmoved := List.Perm.map
    (fun p : Int × Int => (new_start (allocated bs) 0 p.1, p.2)) hcorr
  simpa only [List.map_map, Function.comp, RunningProcess.key, MemoryBlock.key] using hmoved

/-! ## The driver keeps coverage and correspondence -/

theorem linked_placement_rounds (p : Process) (t M : Int) (rounds : Nat)
    (mem : List MemoryBlock) (run : List RunningProcess) (hsize : 0 < p.size)
    (htiles : Tiles 0 M mem) (hcorr : Corresponds mem run) :
    Tiles 0 M (placement_rounds p t M rounds mem run).memory ∧
    Corresponds (placement_rounds p t M rounds mem run).memory
      (placement_rounds p t M rounds mem run).running := by
  induction rounds generalizing mem run with
  | zero => exact ⟨htiles, hcorr⟩
  | succ n ih =>
    by_cases hfree : calculate_total_free mem < p.size
    · simp only [placement_rounds, if_pos hfree]
      exact ⟨htiles, hcorr⟩
    · cases halloc : (allocate_first_fit mem p.size).1 with
      | some a =>
        simp only [placement_rounds, if_neg hfree, halloc]
        exact ⟨tiles_allocate mem 0 M p.size hsize htiles,
          corresponds_allocate mem run p.size a _ hcorr halloc⟩
      | none =>
        have hge : calculate_total_free mem ≥ p.size := not_lt.mp hfree
        have hsame := allocate_first_fit_unchanged_of_none mem p.size halloc
        simp only [placement_rounds, if_neg hfree, halloc, if_pos hge, hsame]
        exact ih _ _ (tiles_compact_memory mem M run htiles)
          (corresponds_compact_memory M mem run htiles hcorr)

theorem linked_retry_waiting (t M : Int) (q : List WaitingProcess) (mem : List MemoryBlock)
    (run : List RunningProcess) (ac : Nat) (hq : ∀ w ∈ q, 0 < w.process.size)
    (htiles : Tiles 0 M mem) (hcorr : Corresponds mem run) :
    Tiles 0 M (retry_waiting t M q mem run ac).memory ∧
    Corresponds (retry_waiting t M q mem run ac).memory
      (retry_waiting t M q mem run ac).running := by
  induction q generalizing mem run ac with
  | nil => exact ⟨htiles, hcorr⟩
  | cons w rest ih =>
    obtain ⟨h1, h2⟩ := linked_placement_rounds w.process t M 3 mem run
      (hq w (List.mem_cons_self _ _)) htiles hcorr
    have hrest : ∀ v ∈ rest, 0 < v.process.size := fun v hv => hq v (List.mem_cons_of_mem _ hv)
    cases hflag : (placement_rounds w.process t M 3 mem run).allocated with
    | true =>
      rw [retry_waiting_cons_placed t M w rest mem run ac hflag]
      exact ih _ _ _ hrest h1 h2
    | false =>
      rw [retry_waiting_cons_unplaced t M w rest mem run ac hflag]
      exact ih _ _ ac hrest h1 h2

theorem linked_admit_one (M : Int) (p : Process) (s : SimState) (hsize : 0 < p.size)
    (htiles : Tiles 0 M s.memory) (hcorr : Corresponds s.memory s.active) :
    Tiles 0 M (admit_one M p s).memory ∧
    Corresponds (admit_one M p s).memory (admit_one M p s).active := by
  unfold admit_one
  by_cases hp : p.size > M
  · simp only [if_pos hp]
    exact ⟨htiles, hcorr⟩
  · simp only [if_neg hp]
    cases halloc : (allocate_first_fit s.memory p.size).1 with
    | some a =>
      exact ⟨tiles_allocate s.memory 0 M p.size hsize htiles,
        corresponds_allocate s.memory s.active p.size a _ hcorr halloc⟩
    | none =>
      simp only [allocate_first_fit_unchanged_of_none s.memory p.size halloc]
      exact ⟨htiles, hcorr⟩

theorem linked_admit_arrivals (M : Int) (rest : List Process) (s : SimState)
    (hrest : ∀ p ∈ rest, 0 < p.size)
    (htiles : Tiles 0 M s.memory) (hcorr : Corresponds s.memory s.active) :
    Tiles 0 M (admit_arrivals M rest s).memory ∧
    Corresponds (admit_arrivals M rest s).memory (admit_arrivals M rest s).active := by
  induction rest generalizing s with
  | nil => exact ⟨htiles, hcorr⟩
  | cons p rest ih =>
    by_cases harr : p.arrival_time ≤ s.current_time
    · simp only [admit_arrivals, if_pos harr]
      obtain ⟨h1, h2⟩ := linked_admit_one M p s (hrest p (List.mem_cons_self _ _)) htiles hcorr
      exact ih _ (fun q hq => hrest q (List.mem_cons_of_mem _ hq)) h1 h2
    · simp only [admit_arrivals, if_neg harr]
      exact ⟨htiles, hcorr⟩

theorem linked_expire (M : Int) (s : SimState)
    (htiles : Tiles 0 M s.memory) (hcorr : Corresponds s.memory s.active) :
    Tiles 0 M (expire s).memory ∧ Corresponds (expire s).memory (expire s).active := by
  have := corresponds_check_completed M s.current_time s.active [] s.memory htiles
    (by simpa using hcorr)
  simpa [expire] using this

theorem linked_arrivals_step (M : Int) (ps : List Process) (s : SimState)
    (hps : ∀ p ∈ ps, 0 < p.size)
    (htiles : Tiles 0 M s.memory) (hcorr : Corresponds s.memory s.active) :
    Tiles 0 M (arrivals_step M ps s).memory ∧ Corresponds (arrivals_step M ps s).memory (arrivals_step M ps s).active :=
  linked_admit_arrivals M _ s (fun p hp => hps p (List.mem_of_mem_drop hp)) htiles hcorr

theorem linked_retry (M : Int) (s : SimState) (hq : ∀ w ∈ s.waiting, 0 < w.process.size)
    (htiles : Tiles 0 M s.memory) (hcorr : Corresponds s.memory s.active) :
    Tiles 0 M (retry M s).memory ∧ Corresponds (retry M s).memory (retry M s).active :=
  linked_retry_waiting s.current_time M s.waiting s.memory s.active s.alloc_count hq htiles
    hcorr

theorem linked_steps (M : Int) (ps : List Process) (s : SimState)
    (hps : ∀ p ∈ ps, 0 < p.size) (hq : ∀ w ∈ s.waiting, w.process ∈ ps ∧ w.process.size ≤ M)
    (htiles : Tiles 0 M s.memory) (hcorr : Corresponds s.memory s.active) :
    (Tiles 0 M (expire s).memory ∧ Corresponds (expire s).memory (expire s).active) ∧
    (Tiles 0 M (arrivals_step M ps (expire s)).memory ∧
      Corresponds (arrivals_step M ps (expire s)).memory (arrivals_step M ps (expire s)).active) ∧
    (Tiles 0 M (retry M (arrivals_step M ps (expire s))).memory ∧
      Corresponds (retry M (arrivals_step M ps (expire s))).memory
        (retry M (arrivals_step M ps (expire s))).active) := by
  have h1 := linked_expire M s htiles hcorr
  have h2 := linked_arrivals_step M ps (expire s) hps h1.1 h1.2
  have hq2 : ∀ w ∈ (arrivals_step M ps (expire s)).waiting, 0 < w.process.size :=
    fun w hw => hps _ (waiting_arrivals_step M ps s hq w hw).1
  exact ⟨h1, h2, linked_retry M _ hq2 h2.1 h2.2⟩

theorem linked_reached (M : Int) (ps : List Process) (s : SimState) (hM : 0 < M)
    (hps : ∀ p ∈ ps, 0 < p.size) (h : Reached M ps s) :
    Tiles 0 M s.memory ∧ Corresponds s.memory s.active := by
  induction h with
  | start =>
    refine ⟨⟨rfl, hM, ?_⟩, ?_⟩
    · show (0 : Int) + M = M
      ring
    · exact List.Perm.refl _
  | next s hs _ ih =>
    exact (linked_steps M ps s hps (waiting_reached M ps s hs) ih.1 ih.2).2.2

/-! ## One-to-one correspondence and positive block sizes in the driver -/

theorem filter_same_image_length {α β : Type} [DecidableEq β] (f : α → β) (l : List α)
    (x : α) (hnd : (l.map f).Nodup) (hx : x ∈ l) :
    (l.filter (fun y => decide (f y = f x))).length = 1 := by
  induction l with
  | nil => cases hx
  | cons a l ih =>
    rw [List.map_cons, List.nodup_cons] at hnd
    obtain ⟨hnotin, hnd'⟩ := hnd
    by_cases hax : f a = f x
    · have hnone : l.filter (fun y => decide (f y = f x)) = [] := by
        apply List.filter_eq_nil_iff.mpr
        intro y hy
        simp only [decide_eq_true_eq]
        intro hyx
        exact hnotin (List.mem_map.mpr ⟨y, hy, by rw [hyx, hax]⟩)
      simp only [List.filter_cons, hax, decide_True, if_true, hnone, List.length_singleton]
    · have hxl : x ∈ l := by
        rcases List.mem_cons.mp hx with rfl | h
        · exact absurd rfl hax
        · exact h
      simp only [List.filter_cons, hax, decide_False, Bool.false_eq_true, if_false]
      exact ih hnd' hxl

theorem filter_image_length_of_perm {α β γ : Type} [DecidableEq γ] (f : α → γ) (g : β → γ)
    (l₁ : List α) (l₂ : List β) (h : (l₁.map f).Perm (l₂.map g)) (k : γ) :
    (l₁.filter (fun a => decide (f a = k))).length =
      (l₂.filter (fun b => decide (g b = k))).length := by
  have h1 : (l₁.filter (fun a => decide (f a = k))).length =
      ((l₁.map f).filter (fun c => decide (c = k))).length := by
    rw [List.filter_map, List.length_map]
    rfl
  have h2 : (l₂.filter (fun b => decide (g b = k))).length =
      ((l₂.map g).filter (fun c => decide (c = k))).length := by
    rw [List.filter_map, List.length_map]
    rfl
  rw [h1, h2]
  exact (List.Perm.filter _ h).length_eq

theorem exactlyOne_of_linked (bs : List MemoryBlock) (rs : List RunningProcess) (lo hi : Int)
    (htiles : Tiles lo hi bs) (hcorr : Corresponds bs rs) : ExactlyOne bs rs := by
  have hstarts := tiles_allocated_nodup bs lo hi htiles
  have hkeysB : ((allocated bs).map MemoryBlock.key).Nodup := by
    apply List.Nodup.of_map Prod.fst
    simpa only [List.map_map] using hstarts
  have hkeysR : (rs.map RunningProcess.key).Nodup := (List.Perm.nodup_iff hcorr).mpr hkeysB
  have hblock : ∀ (l : List MemoryBlock) (r : RunningProcess),
      l.filter (fun b => decide (b.status = ALLOCATED ∧ b.start = r.start ∧ b.size = r.size)) =
        (allocated l).filter (fun b => decide (b.key = r.key)) := by
    intro l r
    unfold allocated
    rw [List.filter_filter]
    apply List.filter_congr
    intro b _
    simp only [MemoryBlock.key, RunningProcess.key, Prod.mk.injEq, Bool.decide_and,
      Bool.and_comm]
  have hrun : ∀ (l : List RunningProcess) (b : MemoryBlock),
      l.filter (fun r => decide (r.start = b.start ∧ r.size = b.size)) =
        l.filter (fun r => decide (r.key = b.key)) := by
    intro l b
    apply List.filter_congr
    intro r _
    simp only [MemoryBlock.key, RunningProcess.key, Prod.mk.injEq]
  constructor
  · intro b hb hst
    have hmem : b ∈ allocated bs := List.mem_filter.mpr ⟨hb, by simpa using hst⟩
    rw [hrun, filter_image_length_of_perm RunningProcess.key MemoryBlock.key rs (allocated bs)
      hcorr b.key]
    exact filter_same_image_length MemoryBlock.key (allocated bs) b hkeysB hmem
  · intro r hr
    rw [hblock, ← filter_image_length_of_perm RunningProcess.key MemoryBlock.key rs
      (allocated bs) hcorr r.key]
    exact filter_same_image_length RunningProcess.key rs r hkeysR hr

/-- C17 (block/process correspondence): for `M > 0` and a batch of processes with positive
sizes, in every state at the head of the loop and after each of the steps expire, arrivals
and retry that follow it, every Allocated block has exactly one running record with the
same start and size and every running record has exactly one such Allocated block. -/
theorem block_process_correspondence (M : Int) (hM : 0 < M) (ps : List Process)
    (hps : ∀ p ∈ ps, 0 < p.size) (s : SimState) (h : Reached M ps s) :
    ExactlyOne s.memory s.active ∧
    ExactlyOne (expire s).memory (expire s).active ∧
    ExactlyOne (arrivals_step M ps (expire s)).memory (arrivals_step M ps (expire s)).active ∧
    ExactlyOne (retry M (arrivals_step M ps (expire s))).memory
      (retry M (arrivals_step M ps (expire s))).active := by
  obtain ⟨htiles, hcorr⟩ := linked_reached M ps s hM hps h
  obtain ⟨h1, h2, h3⟩ := linked_steps M ps s hps (waiting_reached M ps s h) htiles hcorr
  exact ⟨exactlyOne_of_linked _ _ 0 M htiles hcorr, exactlyOne_of_linked _ _ 0 M h1.1 h1.2,
    exactlyOne_of_linked _ _ 0 M h2.1 h2.2, exactlyOne_of_linked _ _ 0 M h3.1 h3.2⟩

/-- Witness for C17: the state after the first tick of a run with memory 100. -/
theorem block_process_correspondence_witness :
    ExactlyOne (tick 100 [⟨0, 30, 5, 1⟩, ⟨0, 40, 2, 2⟩, ⟨1, 50, 3, 3⟩] (initial_state 100)).memory
      (tick 100 [⟨0, 30, 5, 1⟩, ⟨0, 40, 2, 2⟩, ⟨1, 50, 3, 3⟩] (initial_state 100)).active :=
  (block_process_correspondence 100 (by decide)
    [⟨0, 30, 5, 1⟩, ⟨0, 40, 2, 2⟩, ⟨1, 50, 3, 3⟩] (by decide) _
    (Reached.next _ Reached.start (by decide))).1

/-- C19, as stated, fails: with memory 100 and a batch of ten records of non-negative
integers whose first record has size 0, the state after the first iteration of the loop
holds an Allocated block of size 0. -/
theorem zero_size_process_makes_zero_size_block :
    10 ≤ zero_size_batch.length ∧
    (∀ p ∈ zero_size_batch, 0 ≤ p.arrival_time ∧ 0 ≤ p.size ∧ 0 ≤ p.burst_time) ∧
    Reached 100 zero_size_batch (tick 100 zero_size_batch (initial_state 100)) ∧
    (tick 100 zero_size_batch (initial_state 100)).memory =
      [⟨0, 0, ALLOCATED⟩, ⟨0, 100, FREE⟩] ∧
    ¬ (∀ b ∈ (tick 100 zero_size_batch (initial_state 100)).memory, 0 < b.size) := by
  refine ⟨by decide, by decide, Reached.next _ Reached.start (by decide), by decide, ?_⟩
  intro hall
  have hmem : (⟨0, 0, ALLOCATED⟩ : MemoryBlock) ∈
      (tick 100 zero_size_batch (initial_state 100)).memory := by decide
  exact absurd (hall _ hmem) (by decide)

/-- C19, amended: for `M > 0` and a batch of processes with positive sizes, every block in
every state at the head of the loop and after each of the steps expire, arrivals and retry
that follow it has positive size. -/
theorem blocks_positive_of_positive_sizes (M : Int) (hM : 0 < M) (ps : List Process)
    (hps : ∀ p ∈ ps, 0 < p.size) (s : SimState) (h : Reached M ps s) :
    (∀ b ∈ s.memory, 0 < b.size) ∧
    (∀ b ∈ (expire s).memory, 0 < b.size) ∧
    (∀ b ∈ (arrivals_step M ps (expire s)).memory, 0 < b.size) ∧
    (∀ b ∈ (retry M (arrivals_step M ps (expire s))).memory, 0 < b.size) := by
  obtain ⟨htiles, hcorr⟩ := linked_reached M ps s hM hps h
  obtain ⟨h1, h2, h3⟩ := linked_steps M ps s hps (waiting_reached M ps s h) htiles hcorr
  exact ⟨tiles_pos _ 0 M htiles, tiles_pos _ 0 M h1.1, tiles_pos _ 0 M h2.1,
    tiles_pos _ 0 M h3.1⟩

/-- Witness for the amended C19: the state after the first tick of a run with memory 100. -/
theorem blocks_positive_witness :
    (0 : Int) < 100 ∧
    ∀ b ∈ (tick 100 [⟨0, 30, 5, 1⟩, ⟨0, 40, 2, 2⟩, ⟨1, 50, 3, 3⟩] (initial_state 100)).memory,
      0 < b.size :=
  ⟨by decide, (blocks_positive_of_positive_sizes 100 (by decide)
    [⟨0, 30, 5, 1⟩, ⟨0, 40, 2, 2⟩, ⟨1, 50, 3, 3⟩] (by decide) _
    (Reached.next _ Reached.start (by decide))).1⟩

/-! ## The simulation loop terminates -/

theorem horizon_check_completed (t : Int) (rs : List RunningProcess) (mem : List MemoryBlock)
    (hne : rs ≠ []) :
    horizon (t + 1) (check_completed_processes rs mem t).1 + 1 ≤ horizon t rs := by
  induction rs generalizing mem with
  | nil => exact absurd rfl hne
  | cons r rest ih =>
    cases rest with
    | nil =>
      by_cases hdone : r.finish_time ≤ t
      · simp only [check_completed_processes, if_pos hdone, horizon]
        omega
      · simp only [check_completed_processes, if_neg hdone, horizon]
        omega
    | cons r2 rest2 =>
      by_cases hdone : r.finish_time ≤ t
      · have := ih (deallocate mem r.start) (by simp)
        rw [check_completed_processes, if_pos hdone]
        rw [horizon]
        omega
      · have := ih mem (by simp)
        rw [check_completed_processes, if_neg hdone]
        simp only [horizon] at this ⊢
        omega

theorem horizon_expire (s : SimState) :
    horizon (s.current_time + 1) (expire s).active + (if s.active = [] then 0 else 1) ≤
      horizon s.current_time s.active := by
  by_cases hne : s.active = []
  · simp only [expire, hne, check_completed_processes, horizon, if_true]
    exact le_refl _
  · simp only [if_neg hne]
    exact horizon_check_completed s.current_time s.active s.memory hne

theorem arrival_weight_sum_mono (t : Int) (l : List Process) :
    (l.map (arrival_weight (t + 1))).sum ≤ (l.map (arrival_weight t)).sum := by
  induction l with
  | nil => exact le_refl _
  | cons p rest ih =>
    simp only [List.map_cons, List.sum_cons, arrival_weight] at ih ⊢
    omega

theorem admit_one_potential (M : Int) (p : Process) (s : SimState) :
    ((admit_one M p s).waiting.map queue_weight).sum +
        horizon (s.current_time + 1) (admit_one M p s).active + 1 ≤
      arrival_weight s.current_time p + (s.waiting.map queue_weight).sum +
        horizon (s.current_time + 1) s.active := by
  unfold admit_one
  by_cases hp : p.size > M
  · simp only [if_pos hp, arrival_weight]
    omega
  · simp only [if_neg hp]
    cases (allocate_first_fit s.memory p.size).1 with
    | some a =>
      simp only [add_running_process, horizon, arrival_weight]
      omega
    | none =>
      simp only [add_to_waiting, List.map_append, List.sum_append, List.map_cons, List.map_nil,
        List.sum_cons, List.sum_nil, queue_weight, arrival_weight]
      omega

theorem admit_arrivals_current_time (M : Int) (rest : List Process) (s : SimState) :
    (admit_arrivals M rest s).current_time = s.current_time := by
  induction rest generalizing s with
  | nil => rfl
  | cons p rest ih =>
    by_cases harr : p.arrival_time ≤ s.current_time
    · simp only [admit_arrivals, if_pos harr, ih, admit_one_current_time]
    · simp only [admit_arrivals, if_neg harr]

theorem admit_arrivals_potential (M : Int) (ps rest : List Process) (s : SimState)
    (hrest : ps.drop s.process_idx = rest) :
    ((ps.drop (admit_arrivals M rest s).process_idx).map
        (arrival_weight (s.current_time + 1))).sum +
      ((admit_arrivals M rest s).waiting.map queue_weight).sum +
      horizon (s.current_time + 1) (admit_arrivals M rest s).active +
      (if rest = [] then 0 else 1) ≤
    (rest.map (arrival_weight s.current_time)).sum + (s.waiting.map queue_weight).sum +
      horizon (s.current_time + 1) s.active := by
  induction rest generalizing s with
  | nil =>
    simp only [admit_arrivals, hrest, List.map_nil, List.sum_nil, if_true]
    omega
  | cons p rest ih =>
    by_cases harr : p.arrival_time ≤ s.current_time
    · obtain ⟨_, _, hdrop⟩ := drop_eq_cons ps s.process_idx p rest hrest
      have hstep := admit_one_potential M p s
      have hIH := ih (admit_one M p s) (by rw [admit_one_process_idx]; exact hdrop)
      rw [admit_one_current_time] at hIH
      simp only [admit_arrivals, if_pos harr, List.map_cons, List.sum_cons, reduceCtorEq,
        if_false]
      by_cases hnil : rest = []
      · simp only [hnil, if_true] at hIH ⊢
        omega
      · simp only [if_neg hnil] at hIH
        omega
    · have hmono := arrival_weight_sum_mono s.current_time rest
      simp only [admit_arrivals, if_neg harr, hrest, List.map_cons, List.sum_cons,
        reduceCtorEq, if_false, arrival_weight] at hmono ⊢
      omega

theorem horizon_congr (t : Int) (rs rs' : List RunningProcess)
    (h : rs.map RunningProcess.finish_time = rs'.map RunningProcess.finish_time) :
    horizon t rs = horizon t rs' := by
  induction rs generalizing rs' with
  | nil =>
    cases rs' with
    | nil => rfl
    | cons r' rest' => simp at h
  | cons r rest ih =>
    cases rs' with
    | nil => simp at h
    | cons r' rest' =>
      simp only [List.map_cons, List.cons.injEq] at h
      simp only [horizon, h.1, ih rest' h.2]

theorem placement_rounds_finish_times (p : Process) (t M : Int) (rounds : Nat)
    (mem : List MemoryBlock) (run : List RunningProcess) :
    (placement_rounds p t M rounds mem run).running.map RunningProcess.finish_time =
      ((if (placement_rounds p t M rounds mem run).allocated
        then ([⟨0, p.size, t + p.burst_time⟩] : List RunningProcess) else []) ++ run).map
        RunningProcess.finish_time := by
  have h := congrArg (List.map Prod.snd) (placement_rounds_profile p t M rounds mem run)
  simp only [List.map_map, List.map_append] at h
  rw [List.map_append]
  cases hflag : (placement_rounds p t M rounds mem run).allocated with
  | true =>
    rw [hflag] at h
    simpa [Function.comp] using h
  | false =>
    rw [hflag] at h
    simpa [Function.comp] using h

theorem placement_rounds_horizon (p : Process) (t M : Int) (rounds : Nat)
    (mem : List MemoryBlock) (run : List RunningProcess) :
    horizon (t + 1) (placement_rounds p t M rounds mem run).running ≤
      horizon (t + 1) run +
        (if (placement_rounds p t M rounds mem run).allocated
          then p.burst_time.toNat + 1 else 0) := by
  rw [horizon_congr _ _ _ (placement_rounds_finish_times p t M rounds mem run)]
  cases (placement_rounds p t M rounds mem run).allocated with
  | true =>
    have hcons : horizon (t + 1) (([⟨0, p.size, t + p.burst_time⟩] : List RunningProcess) ++ run) =
        max ((t + p.burst_time - (t + 1)).toNat + 1) (horizon (t + 1) run) := rfl
    simp only [if_true]
    rw [hcons]
    omega
  | false => simp

theorem retry_waiting_potential (t M : Int) (q : List WaitingProcess) (mem : List MemoryBlock)
    (run : List RunningProcess) (ac : Nat) :
    ((retry_waiting t M q mem run ac).waiting.map queue_weight).sum +
        horizon (t + 1) (retry_waiting t M q mem run ac).running +
        (retry_placed t M q mem run).count true ≤
      (q.map queue_weight).sum + horizon (t + 1) run := by
  induction q generalizing mem run ac with
  | nil => simp [retry_waiting, retry_placed]
  | cons w rest ih =>
    have hstep := placement_rounds_horizon w.process t M 3 mem run
    cases hflag : (placement_rounds w.process t M 3 mem run).allocated with
    | true =>
      have hIH := ih (placement_rounds w.process t M 3 mem run).memory
        (placement_rounds w.process t M 3 mem run).running (ac + 1)
      rw [hflag] at hstep
      rw [retry_waiting_cons_placed t M w rest mem run ac hflag, retry_placed_cons, hflag,
        List.count_cons_self]
      simp only [if_true] at hstep
      simp only [List.map_cons, List.sum_cons, queue_weight] at hIH ⊢
      omega
    | false =>
      have hIH := ih (placement_rounds w.process t M 3 mem run).memory
        (placement_rounds w.process t M 3 mem run).running ac
      rw [hflag] at hstep
      rw [retry_waiting_cons_unplaced t M w rest mem run ac hflag, retry_placed_cons, hflag,
        List.count_cons_of_ne (by decide)]
      simp only [Bool.false_eq_true, if_false] at hstep
      simp only [List.map_cons, List.sum_cons, queue_weight] at hIH ⊢
      omega

theorem balanced_of_tiles (M : Int) (bs : List MemoryBlock) (h : Tiles 0 M bs) :
    Balanced M bs := by
  have hsum := tiles_sum bs 0 M h
  exact ⟨by omega, fun b hb _ => tiles_pos bs 0 M h b hb⟩

/-- With nothing running, the whole memory is free, so the head of the queue is placed. -/
theorem retry_places_head_when_idle (t M : Int) (w : WaitingProcess)
    (rest : List WaitingProcess) (mem : List MemoryBlock)
    (htiles : Tiles 0 M mem) (hcorr : Corresponds mem [])
    (hpos : 0 < w.process.size) (hle : w.process.size ≤ M) :
    1 ≤ (retry_placed t M (w :: rest) mem []).count true := by
  have hnone : allocated mem = [] := (corresponds_nil_iff mem).mp hcorr
  have hsplit := total_allocated_add_free mem
  have hsum := tiles_sum mem 0 M htiles
  have htotal : total_allocated mem = 0 := by
    unfold total_allocated
    rw [hnone]
    rfl
  have hfree : w.process.size ≤ calculate_total_free mem := by omega
  have hplaced := (placement_rounds_allocated_iff w.process t M 1 mem []
    (balanced_of_tiles M mem htiles) hpos).mpr hfree
  rw [retry_placed_cons, hplaced, List.count_cons_self]
  omega

theorem potential_tick_le (M : Int) (ps : List Process) (s : SimState) :
    potential ps (tick M ps s) +
        (retry_placed s.current_time M (arrivals_step M ps (expire s)).waiting
          (arrivals_step M ps (expire s)).memory (arrivals_step M ps (expire s)).active).count true +
        (if ps.drop s.process_idx = [] then 0 else 1) +
        (if s.active = [] then 0 else 1) ≤
      potential ps s := by
  have hE := horizon_expire s
  have hA : ((ps.drop (arrivals_step M ps (expire s)).process_idx).map
        (arrival_weight (s.current_time + 1))).sum +
      ((arrivals_step M ps (expire s)).waiting.map queue_weight).sum +
      horizon (s.current_time + 1) (arrivals_step M ps (expire s)).active +
      (if ps.drop s.process_idx = [] then 0 else 1) ≤
    ((ps.drop s.process_idx).map (arrival_weight s.current_time)).sum +
      (s.waiting.map queue_weight).sum + horizon (s.current_time + 1) (expire s).active :=
    admit_arrivals_potential M ps (ps.drop (expire s).process_idx) (expire s) rfl
  have htime : (arrivals_step M ps (expire s)).current_time = s.current_time :=
    admit_arrivals_current_time M _ (expire s)
  have hR := retry_waiting_potential (arrivals_step M ps (expire s)).current_time M
    (arrivals_step M ps (expire s)).waiting (arrivals_step M ps (expire s)).memory
    (arrivals_step M ps (expire s)).active (arrivals_step M ps (expire s)).alloc_count
  rw [htime] at hR
  have hpot : potential ps (tick M ps s) =
      ((ps.drop (arrivals_step M ps (expire s)).process_idx).map
        (arrival_weight (s.current_time + 1))).sum +
      ((retry_waiting s.current_time M (arrivals_step M ps (expire s)).waiting
        (arrivals_step M ps (expire s)).memory (arrivals_step M ps (expire s)).active
        (arrivals_step M ps (expire s)).alloc_count).waiting.map queue_weight).sum +
      horizon (s.current_time + 1)
        (retry_waiting s.current_time M (arrivals_step M ps (expire s)).waiting
          (arrivals_step M ps (expire s)).memory (arrivals_step M ps (expire s)).active
          (arrivals_step M ps (expire s)).alloc_count).running := by
    simp only [potential, tick, advance, retry, htime]
  have hpot0 : potential ps s =
      ((ps.drop s.process_idx).map (arrival_weight s.current_time)).sum +
      (s.waiting.map queue_weight).sum + horizon s.current_time s.active := rfl
  rw [hpot, hpot0]
  omega

theorem expire_idle (s : SimState) (hact : s.active = []) : expire s = s := by
  cases s with
  | mk memory active waiting current_time alloc_count process_idx =>
    simp only at hact
    subst hact
    rfl

theorem potential_tick (M : Int) (ps : List Process) (s : SimState)
    (htiles : Tiles 0 M s.memory) (hcorr : Corresponds s.memory s.active)
    (hq : ∀ w ∈ s.waiting, 0 < w.process.size ∧ w.process.size ≤ M)
    (hloop : loop_condition ps s) :
    potential ps (tick M ps s) < potential ps s := by
  have hle := potential_tick_le M ps s
  by_cases hact : s.active = []
  · by_cases hdrop : ps.drop s.process_idx = []
    · have hidx : ¬ s.process_idx < ps.length := by
        have := List.drop_eq_nil_iff.mp hdrop
        omega
      have hwait : s.waiting ≠ [] := by
        rcases hloop with h | h | h
        · exact absurd h hidx
        · exact absurd hact h
        · exact h
      have hadm : arrivals_step M ps (expire s) = s := by
        rw [expire_idle s hact]
        show admit_arrivals M (ps.drop s.process_idx) s = s
        rw [hdrop]
        rfl
      obtain ⟨w, rest, hw⟩ := List.exists_cons_of_ne_nil hwait
      have hwq := hq w (by rw [hw]; exact List.mem_cons_self _ _)
      have hplaced := retry_places_head_when_idle s.current_time M w rest s.memory htiles
        (by rw [hact] at hcorr; exact hcorr) hwq.1 hwq.2
      rw [hadm, hw, hact] at hle
      omega
    · rw [if_neg hdrop] at hle
      omega
  · rw [if_neg hact] at hle
    omega

theorem not_loop_condition_iff (ps : List Process) (s : SimState)
    (hidx : s.process_idx ≤ ps.length) : ¬ loop_condition ps s ↔ Terminal ps s := by
  unfold loop_condition Terminal
  constructor
  · intro h
    refine ⟨?_, ?_, ?_⟩
    · by_contra hne
      exact h (Or.inl (by omega))
    · by_contra hne
      exact h (Or.inr (Or.inl hne))
    · by_contra hne
      exact h (Or.inr (Or.inr hne))
  · rintro ⟨h1, h2, h3⟩ h
    rcases h with h | h | h
    · omega
    · exact h h2
    · exact h h3

theorem run_driver_terminal (M : Int) (ps : List Process) (hM : 0 < M)
    (hps : ∀ p ∈ ps, 0 < p.size) (fuel : Nat) (s : SimState) (hs : Reached M ps s)
    (hfuel : potential ps s ≤ fuel) :
    Reached M ps (run_driver M ps fuel s) ∧ Terminal ps (run_driver M ps fuel s) := by
  induction fuel generalizing s with
  | zero =>
    have hterm : ¬ loop_condition ps s := by
      intro hloop
      obtain ⟨htiles, hcorr⟩ := linked_reached M ps s hM hps hs
      have hq := waiting_reached M ps s hs
      have := potential_tick M ps s htiles hcorr
        (fun w hw => ⟨hps _ (hq w hw).1, (hq w hw).2⟩) hloop
      omega
    exact ⟨hs, (not_loop_condition_iff ps s (accounted_reached M ps s hs).1).mp hterm⟩
  | succ n ih =>
    by_cases hloop : loop_condition ps s
    · obtain ⟨htiles, hcorr⟩ := linked_reached M ps s hM hps hs
      have hq := waiting_reached M ps s hs
      have hdec := potential_tick M ps s htiles hcorr
        (fun w hw => ⟨hps _ (hq w hw).1, (hq w hw).2⟩) hloop
      simp only [run_driver, if_pos hloop]
      exact ih _ (Reached.next s hs hloop) (by omega)
    · simp only [run_driver, if_neg hloop]
      exact ⟨hs, (not_loop_condition_iff ps s (accounted_reached M ps s hs).1).mp hloop⟩

/-- C16 (the driver halts): for `M > 0` and a batch of processes with non-negative arrival
times, positive sizes and non-negative burst times, sorted by arrival time, the simulation
loop started in the initial state leaves the loop after finitely many iterations (at most
`potential` of the initial state), in a state that the driver reaches and in which no
arrival is unprocessed, nothing is running and the queue is empty.  The proof uses only
`M > 0` and the positive sizes. -/
theorem driver_halts (M : Int) (hM : 0 < M) (ps : List Process)
    (hps : ∀ p ∈ ps, 0 ≤ p.arrival_time ∧ 0 < p.size ∧ 0 ≤ p.burst_time)
    (hsorted : ps.Pairwise (fun p q => p.arrival_time ≤ q.arrival_time)) :
    ∃ n, n ≤ potential ps (initial_state M) ∧
      Reached M ps (run_driver M ps n (initial_state M)) ∧
      Terminal ps (run_driver M ps n (initial_state M)) ∧
      ¬ loop_condition ps (run_driver M ps n (initial_state M)) ∧
      (run_driver M ps n (initial_state M)).waiting = [] := by
  have _ := hsorted
  have hres := run_driver_terminal M ps hM (fun p hp => (hps p hp).2.1)
    (potential ps (initial_state M)) (initial_state M) Reached.start (le_refl _)
  refine ⟨potential ps (initial_state M), le_refl _, hres.1, hres.2, ?_, hres.2.2.2⟩
  exact (not_loop_condition_iff ps _ (le_of_eq hres.2.1)).mpr hres.2

/-- Witness for C16: three processes in a memory of 100, the last of which has to wait. -/
theorem driver_halts_witness :
    ∃ n, n ≤ potential [⟨0, 60, 5, 1⟩, ⟨0, 30, 2, 2⟩, ⟨1, 50, 3, 3⟩] (initial_state 100) ∧
      Reached 100 [⟨0, 60, 5, 1⟩, ⟨0, 30, 2, 2⟩, ⟨1, 50, 3, 3⟩]
        (run_driver 100 [⟨0, 60, 5, 1⟩, ⟨0, 30, 2, 2⟩, ⟨1, 50, 3, 3⟩] n (initial_state 100)) ∧
      Terminal [⟨0, 60, 5, 1⟩, ⟨0, 30, 2, 2⟩, ⟨1, 50, 3, 3⟩]
        (run_driver 100 [⟨0, 60, 5, 1⟩, ⟨0, 30, 2, 2⟩, ⟨1, 50, 3, 3⟩] n (initial_state 100)) ∧
      ¬ loop_condition [⟨0, 60, 5, 1⟩, ⟨0, 30, 2, 2⟩, ⟨1, 50, 3, 3⟩]
        (run_driver 100 [⟨0, 60, 5, 1⟩, ⟨0, 30, 2, 2⟩, ⟨1, 50, 3, 3⟩] n (initial_state 100)) ∧
      (run_driver 100 [⟨0, 60, 5, 1⟩, ⟨0, 30, 2, 2⟩, ⟨1, 50, 3, 3⟩] n
        (initial_state 100)).waiting = [] :=
  driver_halts 100 (by decide) [⟨0, 60, 5, 1⟩, ⟨0, 30, 2, 2⟩, ⟨1, 50, 3, 3⟩] (by decide)
    (by decide)

end MemoryManager
